import Mathlib

/-!
Verification of the garbage-collection orchestrator
(`rust/garbage_collector/src/garbage_collector_orchestrator_v2.rs`).

The orchestrator's data model and handler functions are shallowly embedded:
Rust `HashMap`s become association lists, `HashSet`s become lists, fallible
handlers return `Except GCError`, and every dispatch of a sub-task or call to
the metadata store is recorded as an `Action` value in the handler's output.
External collaborators (the metadata store responses, and `petgraph`'s
`toposort` / `dijkstra` / `astar` algorithms) are embedded by executable
functions satisfying their documented contracts.
-/

namespace ChromaGC

/-- Collection identifiers are opaque 128-bit UUIDs; we model them as `Nat`. -/
abbrev CollectionId := Nat

/-- Collection versions are `i64` in the source. -/
abbrev Version := Int

/-- Blob storage paths. -/
abbrev Path := String

/-- `CollectionVersionAction` from `compute_versions_to_delete_from_graph`:
the classification of a `(collection, version)` pair. -/
inductive CollectionVersionAction where
  | Keep
  | Delete
deriving DecidableEq

/-- The immutable part of a collection's version file
(`collection_info_immutable`): tenant, database id and database name. -/
structure CollectionInfoImmutable where
  tenant_id : String
  database_id : String
  database_name : String
deriving DecidableEq

/-- The mutable per-version collection info; the orchestrator only reads
`current_log_position` (an `i64` in the protobuf). -/
structure CollectionInfoMutable where
  current_log_position : Int
deriving DecidableEq

/-- One entry of a version file's version history. -/
structure VersionInfo where
  version : Version
  collection_info_mutable : Option CollectionInfoMutable
deriving DecidableEq

/-- The `version_history` message of a version file. -/
structure VersionHistory where
  versions : List VersionInfo
deriving DecidableEq

/-- `CollectionVersionFile`: the fields of the protobuf message read by the
orchestrator. -/
structure CollectionVersionFile where
  collection_info_immutable : Option CollectionInfoImmutable
  version_history : Option VersionHistory
deriving DecidableEq

/-- A node of the version graph: a `(CollectionId, Version)` pair. -/
structure VersionGraphNode where
  collection_id : CollectionId
  version : Version
deriving DecidableEq

instance : Inhabited VersionGraphNode := ⟨⟨0, 0⟩⟩

/-- Modelled from the spec: `VersionGraph` (from `types.rs`, not under `src/`)
is a directed graph whose nodes are `(CollectionId, Version)` pairs; edges
connect consecutive versions within a collection and a parent's fork-point
version to the child's v0.  Mirroring the arena-backed `petgraph` graph, nodes
are stored in a list and edges are pairs of node indices. -/
structure VersionGraph where
  nodes : List VersionGraphNode
  edges : List (Nat × Nat)
deriving DecidableEq

/-- Modelled from the spec: the collection dependency graph (from `types.rs`,
not under `src/`) is a quotient of the version graph collapsing versions per
collection; nodes are `CollectionId`s, edges point parent to child by fork. -/
structure CollectionDependencyGraph where
  nodes : List CollectionId
  edges : List (CollectionId × CollectionId)
deriving DecidableEq

/-- Modelled from the spec: `version_graph_to_collection_dependency_graph`
(from `types.rs`, not under `src/`) collapses each collection's versions to a
single node and keeps the cross-collection (fork) edges. -/
def version_graph_to_collection_dependency_graph (g : VersionGraph) :
    CollectionDependencyGraph :=
  { nodes := (g.nodes.map (fun n => n.collection_id)).dedup
    edges := (g.edges.filterMap (fun e =>
        if (g.nodes.getD e.1 default).collection_id ≠
            (g.nodes.getD e.2 default).collection_id
        then some ((g.nodes.getD e.1 default).collection_id,
          (g.nodes.getD e.2 default).collection_id)
        else none)).dedup }

/-- Modelled from the spec: `CleanupMode` (from `types.rs`, not under `src/`)
is `DryRun | Delete`; `DryRun` performs all reads and computations but no
destructive writes. -/
inductive CleanupMode where
  | DryRun
  | Delete
deriving DecidableEq

/-- Modelled from the spec: the orchestrator's successful response (from
`types.rs`, not under `src/`). -/
structure GarbageCollectorResponse where
  collection_id : CollectionId
  num_files_deleted : Nat
  num_versions_deleted : Nat
deriving DecidableEq

/-- The error variants of `GarbageCollectorError` reachable in the embedded
handler logic.  (Transport/panic/channel variants are infrastructure failures
of the task runtime and never produced by the embedded code paths.) -/
inductive GCError where
  | MissingVersionFile (collection_id : CollectionId)
  | InvariantViolation (msg : String)
deriving DecidableEq

/-- Every dispatch of a sub-operator task, metadata-store call and final
response of the orchestrator, recorded as a value. -/
inductive Action where
  | DispatchMarkVersions (collection_id : CollectionId)
      (versions : List Version) (tenant_id : String) (database_id : String)
  | DispatchListFiles (collection_id : CollectionId) (version : Version)
  | DispatchDeleteLogs (collections_to_destroy : List CollectionId)
      (collections_to_garbage_collect : List (CollectionId × Nat))
  | DispatchDeleteFiles (unused_s3_files : List Path) (tenant_id : String)
  | DispatchDeleteVersions (collection_id : CollectionId)
      (versions : List Version) (tenant_id : String) (database_id : String)
  | FinishCollectionDeletion (tenant : String) (database_name : String)
      (collection_id : CollectionId)
  | Respond (response : GarbageCollectorResponse)
deriving DecidableEq

/-- The classification produced by `ComputeVersionsToDeleteOperator`:
per collection, a map version to action (`output.versions` in the source). -/
abbrev VersionsToDeleteOutput :=
  List (CollectionId × List (Version × CollectionVersionAction))

/-- `ListFilesAtVersionOutput`. -/
structure ListFilesAtVersionOutput where
  collection_id : CollectionId
  version : Version
  file_paths : List Path
deriving DecidableEq

/-- `DeleteUnusedFilesOutput`: the list of actually deleted paths. -/
structure DeleteUnusedFilesOutput where
  deleted_files : List Path
deriving DecidableEq

/-- The mutable fields of `GarbageCollectorOrchestrator` that the handler
logic reads and writes.  Client handles, channels and tracing state carry no
verification content and are omitted. -/
structure OState where
  collection_id : CollectionId
  cleanup_mode : CleanupMode
  version_files : List (CollectionId × CollectionVersionFile)
  versions_to_delete_output : Option VersionsToDeleteOutput
  pending_mark_versions_at_sysdb_tasks : List CollectionId
  pending_list_files_at_version_tasks : List (CollectionId × Version)
  delete_unused_file_output : Option DeleteUnusedFilesOutput
  delete_unused_log_output : Option Unit
  file_ref_counts : List (Path × Nat)
  num_pending_tasks : Nat
  graph : Option VersionGraph
  soft_deleted_collections_to_gc : List CollectionId
  tenant : Option String
  database_name : Option String
  num_files_deleted : Nat
  num_versions_deleted : Nat
deriving DecidableEq

/-- Successor node indices of `n` in a version graph
(`neighbors_directed(n, Outgoing)`). -/
def graphSuccessors (g : VersionGraph) (n : Nat) : List Nat :=
  g.edges.filterMap (fun e => if e.1 = n then some e.2 else none)

/-- `graph.node_indices().find(...)` locating the node for a
`(collection, version)` pair. -/
def findNodeIndex (g : VersionGraph) (c : CollectionId) (v : Version) : Option Nat :=
  (List.range g.nodes.length).find? (fun n =>
    decide ((g.nodes.getD n default).collection_id = c ∧
      (g.nodes.getD n default).version = v))

/-- `graph.node_indices().find(...)` locating the root: the node index with no
incoming edge. -/
def findRootIndex (g : VersionGraph) : Option Nat :=
  (List.range g.nodes.length).find? (fun n =>
    !(g.edges.any (fun e => e.2 == n)))

/-- Fuelled depth-first path search, embedding `petgraph::algo::astar`'s
contract as the orchestrator uses it: produce some path of node indices from
`cur` to `target` (inclusive on both ends), or `none` when no path exists
within the fuel. -/
def dfsPath (g : VersionGraph) : Nat → Nat → Nat → Option (List Nat)
  | 0, target, cur => if cur = target then some [cur] else none
  | fuel + 1, target, cur =>
    if cur = target then some [cur]
    else (graphSuccessors g cur).findSome? (fun nxt =>
      (dfsPath g fuel target nxt).map (fun p => cur :: p))

/-- The path of node indices from `root` to `target` found by the a-star call
in `handle_list_files_at_version_output`. -/
def astarPath (g : VersionGraph) (root target : Nat) : Option (List Nat) :=
  dfsPath g g.nodes.length target root

/-- A node of `remaining` with no incoming edge from a node of `remaining`:
the next node removable by Kahn's algorithm. -/
def pickSource (remaining : List CollectionId)
    (edges : List (CollectionId × CollectionId)) : Option CollectionId :=
  remaining.find? (fun n => !(remaining.any (fun m => decide ((m, n) ∈ edges))))

/-- Fuelled Kahn topological sort, embedding `petgraph::algo::toposort`'s
contract: on an acyclic graph return the nodes in topological order (sources
first); on a cyclic graph return `none`. -/
def topoAux (edges : List (CollectionId × CollectionId)) :
    Nat → List CollectionId → Option (List CollectionId)
  | _, [] => some []
  | 0, _ :: _ => none
  | fuel + 1, remaining@(_ :: _) =>
    match pickSource remaining edges with
    | none => none
    | some n => (topoAux edges fuel (remaining.erase n)).map (fun l => n :: l)

/-- `petgraph::algo::toposort` on the collection dependency graph. -/
def toposort (nodes : List CollectionId)
    (edges : List (CollectionId × CollectionId)) : Option (List CollectionId) :=
  topoAux edges nodes.length nodes

/-- One expansion pass of the reachable set: add the target of every edge
whose source is already present. -/
def expandReach (edges : List (CollectionId × CollectionId))
    (s : List CollectionId) : List CollectionId :=
  edges.foldl (fun acc e =>
    if e.1 ∈ acc ∧ e.2 ∉ acc then e.2 :: acc else acc) s

/-- Iterated expansion. -/
def reachableAux (edges : List (CollectionId × CollectionId)) :
    Nat → List CollectionId → List CollectionId
  | 0, s => s
  | fuel + 1, s => reachableAux edges fuel (expandReach edges s)

/-- The key set of `petgraph::algo::dijkstra(&graph, c, None, |_| 1)`: the set
of nodes reachable from `c`, inclusive of `c` itself. -/
def dijkstraReachable (edges : List (CollectionId × CollectionId))
    (c : CollectionId) : List CollectionId :=
  reachableAux edges (edges.length + 1) [c]

/-- `self.file_ref_counts.entry(file_path).or_insert(0); *count += 1`:
increment the count of `p`, inserting `0` first when absent. -/
def bumpRefCount (m : List (Path × Nat)) (p : Path) : List (Path × Nat) :=
  match m with
  | [] => [(p, 1)]
  | (q, c) :: rest =>
    if q = p then (q, c + 1) :: rest else (q, c) :: bumpRefCount rest p

/-- `self.file_ref_counts.entry(file_path).or_insert(0)`: insert `p` with
count `0` when absent, leave an existing count unchanged. -/
def zeroRefCount (m : List (Path × Nat)) (p : Path) : List (Path × Nat) :=
  match m with
  | [] => [(p, 0)]
  | (q, c) :: rest =>
    if q = p then (q, c) :: rest else (q, c) :: zeroRefCount rest p

/-- The error message of the empty-file-paths defensive check. -/
def emptyFilePathsMsg (v : Version) (c : CollectionId) : String :=
  "Version " ++ toString v ++ " of collection " ++ toString c ++
    " has no file paths, but has non-v0 ancestors. This should never happen."

/-- `get_eligible_soft_deleted_collections_to_gc`.  The two metadata-store
calls are embedded by their §6 contracts: `soft_delete_status_of` gives the
soft-delete status `batch_get_collection_soft_delete_status` reports for a
requested id, and `updated_at_of` the `updated_at` timestamp the
`get_collections` row carries for a requested id (timestamps as `Int`). -/
def get_eligible_soft_deleted_collections_to_gc
    (soft_delete_status_of : CollectionId → Bool)
    (updated_at_of : CollectionId → Int) (cutoff_time : Int)
    (all_collection_ids : List CollectionId) : List CollectionId :=
  let soft_delete_statuses :=
    all_collection_ids.map (fun id => (id, soft_delete_status_of id))
  let soft_deleted_collections_to_gc := soft_delete_statuses.filterMap (fun p =>
    if p.2 = true ∧ p.1 ∈ all_collection_ids then some p.1 else none)
  let collections := soft_deleted_collections_to_gc.map (fun id => (id, updated_at_of id))
  collections.filterMap (fun p => if p.2 < cutoff_time then some p.1 else none)

/-- The dispatch loop of `handle_compute_versions_to_delete_output`: per
classified collection, one `MarkVersionsAtSysDb` task carrying exactly the
versions classified `Delete`, then one `ListFilesAtVersions` task per
classified version. -/
def dispatchMarkAndList
    (version_files : List (CollectionId × CollectionVersionFile)) :
    VersionsToDeleteOutput → Except GCError (List Action)
  | [] => Except.ok []
  | (collection_id, versions) :: rest =>
    match List.lookup collection_id version_files with
    | none => Except.error (GCError.MissingVersionFile collection_id)
    | some version_file =>
      match version_file.collection_info_immutable with
      | none => Except.error (GCError.InvariantViolation
          ("Expected collection_info_immutable to be set"))
      | some collection_info =>
        let versions_to_mark := versions.filterMap (fun pa =>
          if pa.2 = CollectionVersionAction.Delete then some pa.1 else none)
        match dispatchMarkAndList version_files rest with
        | Except.error e => Except.error e
        | Except.ok restActs =>
          Except.ok (Action.DispatchMarkVersions collection_id versions_to_mark
              collection_info.tenant_id collection_info.database_id ::
            (versions.map (fun pa => Action.DispatchListFiles collection_id pa.1)
              ++ restActs))

/-- `handle_compute_versions_to_delete_output`: an empty classification
terminates with zeros; otherwise the pending fan-out sets are populated and
the mark/list tasks are dispatched. -/
def handle_compute_versions_to_delete_output (st : OState)
    (output : VersionsToDeleteOutput) : Except GCError (OState × List Action) :=
  if output.isEmpty then
    Except.ok (st, [Action.Respond ⟨st.collection_id, 0, 0⟩])
  else
    match dispatchMarkAndList st.version_files output with
    | Except.error e => Except.error e
    | Except.ok acts =>
      Except.ok ({ st with
          pending_list_files_at_version_tasks :=
            output.flatMap (fun cv => cv.2.map (fun pa => (cv.1, pa.1)))
          pending_mark_versions_at_sysdb_tasks := output.map (fun cv => cv.1)
          versions_to_delete_output := some output }, acts)

/-- The minimum classified version that is `Keep` and strictly positive
(`.filter_map(...).min()` in `try_start_delete_unused_logs_operator`). -/
def minKeptPositiveVersion
    (versions : List (Version × CollectionVersionAction)) : Option Version :=
  (versions.filterMap (fun pa =>
    if pa.2 = CollectionVersionAction.Keep ∧ pa.1 > 0 then some pa.1 else none)).min?

/-- The loop of `try_start_delete_unused_logs_operator` building
`collections_to_garbage_collect`: for every collection with a minimum kept
positive version, look up that version's `current_log_position` in the version
history and retain offset `current_log_position + 1`; a negative stored
position fails the `u64` conversion. -/
def computeCollectionsToGarbageCollect
    (version_files : List (CollectionId × CollectionVersionFile)) :
    VersionsToDeleteOutput → Except GCError (List (CollectionId × Nat))
  | [] => Except.ok []
  | (collection_id, versions) :: rest =>
    match minKeptPositiveVersion versions with
    | none => computeCollectionsToGarbageCollect version_files rest
    | some min_version_to_keep =>
      match List.lookup collection_id version_files with
      | none => Except.error (GCError.InvariantViolation
          ("Expected version file to be present"))
      | some version_file =>
        match version_file.version_history with
        | none => Except.error (GCError.InvariantViolation
            ("Expected version file to contain version history"))
        | some version_history =>
          match version_history.versions.find?
              (fun vi => vi.version == min_version_to_keep) with
          | none => Except.error (GCError.InvariantViolation
              ("Expected min kept version to be present in version history"))
          | some version_info =>
            match version_info.collection_info_mutable with
            | none => Except.error (GCError.InvariantViolation
                ("Expected collection info to be present in version history"))
            | some info =>
              if info.current_log_position < 0 then
                Except.error (GCError.InvariantViolation
                  ("Expected log offset to be unsigned"))
              else
                match computeCollectionsToGarbageCollect version_files rest with
                | Except.error e => Except.error e
                | Except.ok restMap =>
                  Except.ok ((collection_id,
                    info.current_log_position.toNat + 1) :: restMap)

/-- `try_start_delete_unused_logs_operator`: once every `MarkVersions` task
has completed, dispatch `DeleteUnusedLogs` with the eligible soft-deleted set
to destroy and the per-collection minimum retained offsets to truncate. -/
def try_start_delete_unused_logs_operator (st : OState) :
    Except GCError (OState × List Action) :=
  if st.pending_mark_versions_at_sysdb_tasks ≠ [] then Except.ok (st, [])
  else
    match st.versions_to_delete_output with
    | none => Except.error (GCError.InvariantViolation
        ("Expected versions_to_delete_output to be set"))
    | some versions_to_delete =>
      match computeCollectionsToGarbageCollect st.version_files versions_to_delete with
      | Except.error e => Except.error e
      | Except.ok collections_to_garbage_collect =>
        Except.ok (st, [Action.DispatchDeleteLogs
          st.soft_deleted_collections_to_gc collections_to_garbage_collect])

/-- The zero-reference-count paths submitted for deletion. -/
def filePathsToDelete (m : List (Path × Nat)) : List Path :=
  m.filterMap (fun pc => if pc.2 = 0 then some pc.1 else none)

/-- `try_start_delete_unused_files_operator`: once every `ListFiles` and every
`MarkVersions` task has completed, record the tenant and database name of the
first version file and dispatch `DeleteUnusedFiles` with the paths whose
reference count is zero. -/
def try_start_delete_unused_files_operator (st : OState) :
    Except GCError (OState × List Action) :=
  if st.pending_list_files_at_version_tasks ≠ [] then Except.ok (st, [])
  else if st.pending_mark_versions_at_sysdb_tasks ≠ [] then Except.ok (st, [])
  else
    match st.version_files.head? with
    | none => Except.error (GCError.InvariantViolation
        ("Expected there to be at least one version file"))
    | some (_, version_file) =>
      match version_file.collection_info_immutable with
      | none => Except.error (GCError.InvariantViolation
          ("Expected collection_info_immutable to be set"))
      | some collection_info =>
        Except.ok ({ st with
            tenant := some collection_info.tenant_id
            database_name := some collection_info.database_name },
          [Action.DispatchDeleteFiles (filePathsToDelete st.file_ref_counts)
            collection_info.tenant_id])

/-- `handle_mark_versions_at_sysdb_output`: remove the collection from the
pending mark set, then try to start the log- and file-deletion operators. -/
def handle_mark_versions_at_sysdb_output (st : OState)
    (collection_id : CollectionId) : Except GCError (OState × List Action) :=
  let st := { st with pending_mark_versions_at_sysdb_tasks :=
      st.pending_mark_versions_at_sysdb_tasks.erase collection_id }
  match try_start_delete_unused_logs_operator st with
  | Except.error e => Except.error e
  | Except.ok (st1, actsLogs) =>
    match try_start_delete_unused_files_operator st1 with
    | Except.error e => Except.error e
    | Except.ok (st2, actsFiles) => Except.ok (st2, actsLogs ++ actsFiles)

/-- The defensive empty-file-set check of
`handle_list_files_at_version_output`: an empty file set is tolerated only
when every version on the path from the graph root to this node is 0. -/
def checkEmptyFilePaths (st : OState) (output : ListFilesAtVersionOutput) :
    Except GCError Unit :=
  if output.file_paths.isEmpty then
    match st.graph with
    | none => Except.error (GCError.InvariantViolation ("Expected graph to be set"))
    | some graph =>
      match findNodeIndex graph output.collection_id output.version with
      | none => Except.error (GCError.InvariantViolation
          ("Expected to find node for collection " ++ toString output.collection_id
            ++ " at version " ++ toString output.version))
      | some this_node =>
        match findRootIndex graph with
        | none => Except.error (GCError.InvariantViolation
            ("Expected to find root node"))
        | some root_index =>
          let root := graph.nodes.getD root_index default
          match astarPath graph root_index this_node with
          | none => Except.error (GCError.InvariantViolation
              ("Expected to find path from root (" ++ toString root.collection_id
                ++ "@v" ++ toString root.version ++ ") to node for "
                ++ toString output.collection_id ++ "@v" ++ toString output.version))
          | some path =>
            let versions_from_root_to_this_node :=
              path.map (fun i => (graph.nodes.getD i default).version)
            let are_all_versions_v0 :=
              versions_from_root_to_this_node.all (fun v => v == 0)
            if are_all_versions_v0 = false then
              Except.error (GCError.InvariantViolation
                (emptyFilePathsMsg output.version output.collection_id))
            else Except.ok ()
  else Except.ok ()

/-- `handle_list_files_at_version_output`: look up the classification of the
pair, run the empty-file-set defense, update the reference counts (increment
for `Keep`, zero-initialise for `Delete`), retire the pending list task, and
try to start the file-deletion operator. -/
def handle_list_files_at_version_output (st : OState)
    (output : ListFilesAtVersionOutput) : Except GCError (OState × List Action) :=
  match st.versions_to_delete_output with
  | none => Except.error (GCError.InvariantViolation
      ("Expected versions_to_delete_output to be set"))
  | some versions_to_delete =>
    match List.lookup output.collection_id versions_to_delete with
    | none => Except.error (GCError.InvariantViolation
        ("Expected versions_to_delete_output to contain collection "
          ++ toString output.collection_id))
    | some versions =>
      match List.lookup output.version versions with
      | none => Except.error (GCError.InvariantViolation
          ("Expected versions_to_delete_output to contain version "
            ++ toString output.version ++ " for collection "
            ++ toString output.collection_id))
      | some version_action =>
        match checkEmptyFilePaths st output with
        | Except.error e => Except.error e
        | Except.ok _ =>
          let file_ref_counts :=
            match version_action with
            | CollectionVersionAction.Keep =>
              output.file_paths.foldl bumpRefCount st.file_ref_counts
            | CollectionVersionAction.Delete =>
              output.file_paths.foldl zeroRefCount st.file_ref_counts
          let st := { st with
            file_ref_counts := file_ref_counts
            pending_list_files_at_version_tasks :=
              st.pending_list_files_at_version_tasks.erase
                (output.collection_id, output.version) }
          try_start_delete_unused_files_operator st

/-- Restriction of the classification to its `Delete` versions, dropping
collections with no `Delete` version (the `filter_map` in
`try_start_delete_versions_at_sysdb_operator`). -/
def deleteOnlyVersions (vtd : VersionsToDeleteOutput) :
    List (CollectionId × List Version) :=
  vtd.filterMap (fun cv =>
    let versions := cv.2.filterMap (fun pa =>
      if pa.2 = CollectionVersionAction.Delete then some pa.1 else none)
    if versions.isEmpty then none else some (cv.1, versions))

/-- The dispatch loop of `try_start_delete_versions_at_sysdb_operator`. -/
def dispatchDeleteVersions
    (version_files : List (CollectionId × CollectionVersionFile)) :
    List (CollectionId × List Version) → Except GCError (List Action)
  | [] => Except.ok []
  | (collection_id, versions) :: rest =>
    match List.lookup collection_id version_files with
    | none => Except.error (GCError.MissingVersionFile collection_id)
    | some version_file =>
      match version_file.collection_info_immutable with
      | none => Except.error (GCError.InvariantViolation
          ("Expected collection_info_immutable to be set"))
      | some collection_info =>
        match dispatchDeleteVersions version_files rest with
        | Except.error e => Except.error e
        | Except.ok restActs =>
          Except.ok (Action.DispatchDeleteVersions collection_id versions
            collection_info.tenant_id collection_info.database_id :: restActs)

/-- `try_start_delete_versions_at_sysdb_operator`: waits for both the
`DeleteFiles` and `DeleteLogs` outputs; in dry-run mode terminates with zeros;
with no `Delete` version terminates with zeros; otherwise dispatches one
`DeleteVersions` task per collection holding `Delete` versions. -/
def try_start_delete_versions_at_sysdb_operator (st : OState) :
    Except GCError (OState × List Action) :=
  match st.delete_unused_file_output with
  | none => Except.ok (st, [])
  | some output =>
    if st.delete_unused_log_output = none then Except.ok (st, [])
    else if st.cleanup_mode = CleanupMode.DryRun then
      Except.ok (st, [Action.Respond ⟨st.collection_id, 0, 0⟩])
    else
      let st := { st with
        num_files_deleted := st.num_files_deleted + output.deleted_files.length }
      match st.versions_to_delete_output with
      | none => Except.error (GCError.InvariantViolation
          ("Expected versions_to_delete_output to be set"))
      | some vtd =>
        let versions_to_delete := deleteOnlyVersions vtd
        let total_num_versions_to_delete :=
          (versions_to_delete.map (fun cv => cv.2.length)).sum
        if total_num_versions_to_delete = 0 then
          Except.ok (st, [Action.Respond ⟨st.collection_id, 0, 0⟩])
        else
          let st := { st with
            num_pending_tasks := st.num_pending_tasks + versions_to_delete.length }
          match dispatchDeleteVersions st.version_files versions_to_delete with
          | Except.error e => Except.error e
          | Except.ok acts => Except.ok (st, acts)

/-- The hard-delete predicate of `handle_delete_versions_output`: the
collection is in the eligible soft-deleted set and so is everything reachable
from it in the collection dependency graph (the dijkstra key set). -/
def hardDeleteEligible (dep : CollectionDependencyGraph)
    (eligible : List CollectionId) (c : CollectionId) : Bool :=
  decide (c ∈ eligible) &&
    (dijkstraReachable dep.edges c).all (fun child => decide (child ∈ eligible))

/-- The hard-delete planning of `handle_delete_versions_output`: topologically
sort the collection dependency graph (aborting on a cycle), walk it in
reverse, and keep the collections passing `hardDeleteEligible`, in order. -/
def computeHardDeleteList (graph : VersionGraph) (eligible : List CollectionId) :
    Except GCError (List CollectionId) :=
  let dep := version_graph_to_collection_dependency_graph graph
  match toposort dep.nodes dep.edges with
  | none => Except.error (GCError.InvariantViolation
      ("Failed to topologically sort collection dependency graph"))
  | some topo => Except.ok (topo.reverse.filter (hardDeleteEligible dep eligible))

/-- The `finish_collection_deletion` call sequence of
`handle_delete_versions_output`, one call per planned collection, each using
the orchestrator's stored tenant and database name. -/
def buildFinishActions (tenant database_name : Option String) :
    List CollectionId → Except GCError (List Action)
  | [] => Except.ok []
  | collection_id :: rest =>
    match tenant with
    | none => Except.error (GCError.InvariantViolation ("Expected tenant to be set"))
    | some t =>
      match database_name with
      | none => Except.error (GCError.InvariantViolation ("Expected database to be set"))
      | some d =>
        match buildFinishActions tenant database_name rest with
        | Except.error e => Except.error e
        | Except.ok restActs =>
          Except.ok (Action.FinishCollectionDeletion t d collection_id :: restActs)

/-- `handle_delete_versions_output`: account the completed task; when it was
the last one, run the hard-delete phase and terminate with the totals. -/
def handle_delete_versions_output (st : OState) (output_versions : List Version) :
    Except GCError (OState × List Action) :=
  let st := { st with
    num_versions_deleted := st.num_versions_deleted + output_versions.length
    num_pending_tasks := st.num_pending_tasks - 1 }
  if st.num_pending_tasks = 0 then
    match st.graph with
    | none => Except.error (GCError.InvariantViolation ("Expected graph to be set"))
    | some graph =>
      match computeHardDeleteList graph st.soft_deleted_collections_to_gc with
      | Except.error e => Except.error e
      | Except.ok ordered =>
        match buildFinishActions st.tenant st.database_name ordered with
        | Except.error e => Except.error e
        | Except.ok finishActs =>
          Except.ok (st, finishActs ++ [Action.Respond
            ⟨st.collection_id, st.num_files_deleted, st.num_versions_deleted⟩])
  else Except.ok (st, [])

/-- Completion events delivered to the orchestrator by the task runtime. -/
inductive Event where
  | computeVersionsToDelete (versions : VersionsToDeleteOutput)
  | markVersions (collection_id : CollectionId)
  | listFiles (output : ListFilesAtVersionOutput)
  | deleteFiles (deleted_files : List Path)
  | deleteLogs
  | deleteVersions (versions : List Version)
deriving DecidableEq

/-- One step of the orchestrator's event loop: the `Handler` impl matching the
event, including the storing of the delete-files/delete-logs outputs done in
those two handlers before `try_start_delete_versions_at_sysdb_operator`. -/
def step (st : OState) : Event → Except GCError (OState × List Action)
  | Event.computeVersionsToDelete v => handle_compute_versions_to_delete_output st v
  | Event.markVersions c => handle_mark_versions_at_sysdb_output st c
  | Event.listFiles o => handle_list_files_at_version_output st o
  | Event.deleteFiles d =>
    try_start_delete_versions_at_sysdb_operator
      { st with delete_unused_file_output := some ⟨d⟩ }
  | Event.deleteLogs =>
    try_start_delete_versions_at_sysdb_operator
      { st with delete_unused_log_output := some () }
  | Event.deleteVersions vs => handle_delete_versions_output st vs

/-- Serial processing of a completion sequence, accumulating the actions. -/
def runEvents : OState → List Event → Except GCError (OState × List Action)
  | st, [] => Except.ok (st, [])
  | st, e :: rest =>
    match step st e with
    | Except.error err => Except.error err
    | Except.ok (st1, acts) =>
      match runEvents st1 rest with
      | Except.error err => Except.error err
      | Except.ok (st2, acts2) => Except.ok (st2, acts ++ acts2)

section RefCountLemmas

lemma lookup_bumpRefCount_self (m : List (Path × Nat)) (p : Path) :
    List.lookup p (bumpRefCount m p) = some ((List.lookup p m).getD 0 + 1) := by
  induction m with
  | nil => simp [bumpRefCount, List.lookup]
  | cons qc rest ih =>
    obtain ⟨q, c⟩ := qc
    by_cases h : q = p
    · subst h
      simp [bumpRefCount, List.lookup]
    · simp [bumpRefCount, h, List.lookup, beq_false_of_ne (Ne.symm h), ih]

lemma lookup_bumpRefCount_ne (m : List (Path × Nat)) (p q : Path) (h : q ≠ p) :
    List.lookup q (bumpRefCount m p) = List.lookup q m := by
  induction m with
  | nil => simp [bumpRefCount, List.lookup, beq_false_of_ne h]
  | cons rc rest ih =>
    obtain ⟨r, c⟩ := rc
    by_cases hr : r = p
    · subst hr
      simp [bumpRefCount, List.lookup, beq_false_of_ne h]
    · simp only [bumpRefCount, if_neg hr]
      by_cases hq : r = q
      · subst hq
        simp [List.lookup]
      · simp [List.lookup, beq_false_of_ne (fun hh => hq hh.symm), ih]

lemma lookup_zeroRefCount_self (m : List (Path × Nat)) (p : Path) :
    List.lookup p (zeroRefCount m p) = some ((List.lookup p m).getD 0) := by
  induction m with
  | nil => simp [zeroRefCount, List.lookup]
  | cons qc rest ih =>
    obtain ⟨q, c⟩ := qc
    by_cases h : q = p
    · subst h
      simp [zeroRefCount, List.lookup]
    · simp [zeroRefCount, h, List.lookup, beq_false_of_ne (Ne.symm h), ih]

lemma lookup_zeroRefCount_ne (m : List (Path × Nat)) (p q : Path) (h : q ≠ p) :
    List.lookup q (zeroRefCount m p) = List.lookup q m := by
  induction m with
  | nil => simp [zeroRefCount, List.lookup, beq_false_of_ne h]
  | cons rc rest ih =>
    obtain ⟨r, c⟩ := rc
    by_cases hr : r = p
    · subst hr
      simp [zeroRefCount, List.lookup, beq_false_of_ne h]
    · simp only [zeroRefCount, if_neg hr]
      by_cases hq : r = q
      · subst hq
        simp [List.lookup]
      · simp [List.lookup, beq_false_of_ne (fun hh => hq hh.symm), ih]

lemma lookup_foldl_bump_not_mem (paths : List Path) (m : List (Path × Nat))
    (p : Path) (h : p ∉ paths) :
    List.lookup p (paths.foldl bumpRefCount m) = List.lookup p m := by
  induction paths generalizing m with
  | nil => rfl
  | cons q rest ih =>
    simp only [List.foldl_cons]
    rw [ih (bumpRefCount m q) (fun hmem => h (List.mem_cons_of_mem q hmem)),
      lookup_bumpRefCount_ne m q p (fun hh => h (hh ▸ List.mem_cons_self q rest))]

lemma lookup_foldl_bump_mem (paths : List Path) (m : List (Path × Nat))
    (p : Path) (hnd : paths.Nodup) (h : p ∈ paths) :
    List.lookup p (paths.foldl bumpRefCount m) =
      some ((List.lookup p m).getD 0 + 1) := by
  induction paths generalizing m with
  | nil => cases h
  | cons q rest ih =>
    simp only [List.foldl_cons]
    rcases List.mem_cons.mp h with hq | hmem
    · subst hq
      rw [lookup_foldl_bump_not_mem rest _ p (List.Nodup.not_mem hnd),
        lookup_bumpRefCount_self]
    · rw [ih (bumpRefCount m q) (List.Nodup.of_cons hnd) hmem,
        lookup_bumpRefCount_ne m q p
          (fun hh => (List.Nodup.not_mem hnd) (hh ▸ hmem))]

lemma lookup_foldl_zero_not_mem (paths : List Path) (m : List (Path × Nat))
    (p : Path) (h : p ∉ paths) :
    List.lookup p (paths.foldl zeroRefCount m) = List.lookup p m := by
  induction paths generalizing m with
  | nil => rfl
  | cons q rest ih =>
    simp only [List.foldl_cons]
    rw [ih (zeroRefCount m q) (fun hmem => h (List.mem_cons_of_mem q hmem)),
      lookup_zeroRefCount_ne m q p (fun hh => h (hh ▸ List.mem_cons_self q rest))]

lemma lookup_foldl_zero_mem (paths : List Path) (m : List (Path × Nat))
    (p : Path) (hnd : paths.Nodup) (h : p ∈ paths) :
    List.lookup p (paths.foldl zeroRefCount m) =
      some ((List.lookup p m).getD 0) := by
  induction paths generalizing m with
  | nil => cases h
  | cons q rest ih =>
    simp only [List.foldl_cons]
    rcases List.mem_cons.mp h with hq | hmem
    · subst hq
      rw [lookup_foldl_zero_not_mem rest _ p (List.Nodup.not_mem hnd),
        lookup_zeroRefCount_self]
    · rw [ih (zeroRefCount m q) (List.Nodup.of_cons hnd) hmem,
        lookup_zeroRefCount_ne m q p
          (fun hh => (List.Nodup.not_mem hnd) (hh ▸ hmem))]

lemma mem_filePathsToDelete_sub (m : List (Path × Nat)) (q : Path)
    (h : q ∈ filePathsToDelete m) : q ∈ m.map Prod.fst := by
  simp only [filePathsToDelete, List.mem_filterMap] at h
  obtain ⟨pc, hpc, heq⟩ := h
  by_cases hz : pc.2 = 0
  · simp [hz] at heq
    exact heq ▸ List.mem_map_of_mem Prod.fst hpc
  · simp [hz] at heq

lemma mem_filePathsToDelete (m : List (Path × Nat))
    (hnd : (m.map Prod.fst).Nodup) (q : Path) :
    q ∈ filePathsToDelete m ↔ List.lookup q m = some 0 := by
  induction m with
  | nil => simp [filePathsToDelete, List.lookup]
  | cons pc rest ih =>
    obtain ⟨p, c⟩ := pc
    simp only [List.map_cons, List.nodup_cons] at hnd
    by_cases hq : p = q
    · subst hq
      by_cases hc : c = 0
      · subst hc
        simp [filePathsToDelete, List.lookup]
      · have hnot : p ∉ filePathsToDelete rest := fun hmem =>
          hnd.1 (mem_filePathsToDelete_sub rest p hmem)
        simp only [filePathsToDelete, List.filterMap_cons]
        simp only [if_neg hc]
        rw [show (List.lookup p ((p, c) :: rest)) = some c by simp [List.lookup]]
        constructor
        · intro hmem
          exact absurd hmem hnot
        · intro hh
          exact absurd (Option.some.inj hh) hc
    · have hlk : List.lookup q ((p, c) :: rest) = List.lookup q rest := by
        simp [List.lookup, beq_false_of_ne (fun hh : q = p => hq hh.symm)]
      rw [hlk, ← ih hnd.2]
      simp only [filePathsToDelete, List.filterMap_cons]
      by_cases hc : c = 0
      · simp only [if_pos hc]
        constructor
        · intro hmem
          rcases List.mem_cons.mp hmem with hh | hh
          · exact absurd hh.symm hq
          · exact hh
        · exact fun hmem => List.mem_cons_of_mem p hmem
      · simp [hc]

end RefCountLemmas

section TryStartFilesLemmas

/-- Case analysis of `try_start_delete_unused_files_operator` on success:
either a pending set is nonempty and nothing happens, or both are empty and
exactly one `DeleteUnusedFiles` dispatch (with the zero-count paths and the
first version file's tenant) is emitted while tenant and database are
recorded. -/
lemma tsf_spec (s s' : OState) (a : List Action)
    (h : try_start_delete_unused_files_operator s = Except.ok (s', a)) :
    (a = [] ∧ s' = s ∧ (s.pending_list_files_at_version_tasks ≠ [] ∨
        s.pending_mark_versions_at_sysdb_tasks ≠ []))
  ∨ (s.pending_list_files_at_version_tasks = [] ∧
     s.pending_mark_versions_at_sysdb_tasks = [] ∧
     ∃ cid vf info rest, s.version_files = (cid, vf) :: rest ∧
       vf.collection_info_immutable = some info ∧
       s' = { s with tenant := some info.tenant_id,
                     database_name := some info.database_name } ∧
       a = [Action.DispatchDeleteFiles (filePathsToDelete s.file_ref_counts)
              info.tenant_id]) := by
  unfold try_start_delete_unused_files_operator at h
  by_cases h1 : s.pending_list_files_at_version_tasks ≠ []
  · rw [if_pos h1] at h
    simp only [Except.ok.injEq, Prod.mk.injEq] at h
    obtain ⟨rfl, rfl⟩ := h
    exact Or.inl ⟨rfl, rfl, Or.inl h1⟩
  · rw [if_neg h1] at h
    by_cases h2 : s.pending_mark_versions_at_sysdb_tasks ≠ []
    · rw [if_pos h2] at h
      simp only [Except.ok.injEq, Prod.mk.injEq] at h
      obtain ⟨rfl, rfl⟩ := h
      exact Or.inl ⟨rfl, rfl, Or.inr h2⟩
    · rw [if_neg h2] at h
      right
      refine ⟨not_not.mp h1, not_not.mp h2, ?_⟩
      rcases hvf : s.version_files with _ | ⟨⟨cid, vf⟩, rest⟩ <;> rw [hvf] at h
      · simp [List.head?] at h
      · simp only [List.head?] at h
        rcases hinfo : vf.collection_info_immutable with _ | info <;> rw [hinfo] at h
        · cases h
        · simp only [Except.ok.injEq, Prod.mk.injEq] at h
          obtain ⟨hst, hact⟩ := h
          exact ⟨cid, vf, info, rest, rfl, hinfo, hst.symm, hact.symm⟩

end TryStartFilesLemmas

/-- Claim C7: the eligible soft-deleted set computed after graph construction
contains exactly the collections of the graph whose soft-delete status from
the metadata store is true and whose `updated_at` timestamp is strictly
earlier than the collection soft-delete cutoff time; collections whose
soft-delete status is false are excluded regardless of their timestamp. -/
theorem eligible_soft_deleted_mem_iff (soft_delete_status_of : CollectionId → Bool)
    (updated_at_of : CollectionId → Int) (cutoff_time : Int)
    (all_collection_ids : List CollectionId) (c : CollectionId) :
    c ∈ get_eligible_soft_deleted_collections_to_gc soft_delete_status_of
        updated_at_of cutoff_time all_collection_ids ↔
      c ∈ all_collection_ids ∧ soft_delete_status_of c = true ∧
        updated_at_of c < cutoff_time := by
  simp only [get_eligible_soft_deleted_collections_to_gc, List.mem_filterMap,
    List.mem_map, Option.ite_none_right_eq_some]
  aesop

/-- Claim C6: in dry-run mode, once both the `DeleteFiles` and `DeleteLogs`
outputs have arrived (in either arrival order), the orchestrator terminates
successfully with `num_files_deleted == 0` and `num_versions_deleted == 0`,
dispatching no `DeleteVersions` task and issuing no
`finish_collection_deletion` call. -/
theorem dry_run_terminates_with_zeros (st : OState)
    (o : DeleteUnusedFilesOutput) (d : List Path)
    (hmode : st.cleanup_mode = CleanupMode.DryRun) :
    (st.delete_unused_log_output = some () →
      step st (Event.deleteFiles d) =
        Except.ok ({ st with delete_unused_file_output := some ⟨d⟩ },
          [Action.Respond ⟨st.collection_id, 0, 0⟩])) ∧
    (st.delete_unused_file_output = some o →
      step st Event.deleteLogs =
        Except.ok ({ st with delete_unused_log_output := some () },
          [Action.Respond ⟨st.collection_id, 0, 0⟩])) := by
  constructor
  · intro hlog
    simp [step, try_start_delete_versions_at_sysdb_operator, hmode, hlog]
  · intro hfile
    simp [step, try_start_delete_versions_at_sysdb_operator, hmode, hfile]

/-- A concrete orchestrator state with every list empty, used to instantiate
the claim theorems. -/
def baseState : OState where
  collection_id := 7
  cleanup_mode := CleanupMode.Delete
  version_files := []
  versions_to_delete_output := none
  pending_mark_versions_at_sysdb_tasks := []
  pending_list_files_at_version_tasks := []
  delete_unused_file_output := none
  delete_unused_log_output := none
  file_ref_counts := []
  num_pending_tasks := 0
  graph := none
  soft_deleted_collections_to_gc := []
  tenant := none
  database_name := none
  num_files_deleted := 0
  num_versions_deleted := 0

/-- A dry-run state with both destructive outputs present. -/
def c6State : OState :=
  { baseState with
    cleanup_mode := CleanupMode.DryRun
    delete_unused_file_output := some ⟨["g"]⟩
    delete_unused_log_output := some () }

theorem dry_run_terminates_with_zeros_witness :
    c6State.cleanup_mode = CleanupMode.DryRun ∧
    ((c6State.delete_unused_log_output = some () →
      step c6State (Event.deleteFiles ["f"]) =
        Except.ok ({ c6State with delete_unused_file_output := some ⟨["f"]⟩ },
          [Action.Respond ⟨c6State.collection_id, 0, 0⟩])) ∧
     (c6State.delete_unused_file_output = some ⟨["g"]⟩ →
      step c6State Event.deleteLogs =
        Except.ok ({ c6State with delete_unused_log_output := some () },
          [Action.Respond ⟨c6State.collection_id, 0, 0⟩]))) :=
  ⟨rfl, dry_run_terminates_with_zeros c6State ⟨["g"]⟩ ["f"] rfl⟩

lemma deleteOnlyVersions_eq_nil (V : VersionsToDeleteOutput)
    (hkeep : ∀ cv ∈ V, ∀ pa ∈ cv.2, pa.2 = CollectionVersionAction.Keep) :
    deleteOnlyVersions V = [] := by
  unfold deleteOnlyVersions
  rw [List.filterMap_eq_nil_iff]
  intro cv hcv
  have hinner : cv.2.filterMap (fun pa =>
      if pa.2 = CollectionVersionAction.Delete then some pa.1 else none) = [] := by
    rw [List.filterMap_eq_nil_iff]
    intro pa hpa
    rw [hkeep cv hcv pa hpa]
    simp
  simp [hinner]

/-- Claim C9: when the classification output is non-empty but contains no
version classified `Delete`, then after both the `DeleteFiles` and
`DeleteLogs` outputs arrive in `Delete` mode, the orchestrator terminates
successfully reporting `num_files_deleted == 0` and
`num_versions_deleted == 0`, and never reaches the hard-delete phase: no
`DeleteVersions` dispatch and no `finish_collection_deletion` call occurs,
even if the eligible soft-deleted set is non-empty. -/
theorem no_delete_versions_reports_zeros (st : OState)
    (o : DeleteUnusedFilesOutput) (V : VersionsToDeleteOutput)
    (hmode : st.cleanup_mode = CleanupMode.Delete)
    (hfile : st.delete_unused_file_output = some o)
    (hlog : st.delete_unused_log_output = some ())
    (hvtd : st.versions_to_delete_output = some V)
    (hne : V ≠ [])
    (hkeep : ∀ cv ∈ V, ∀ pa ∈ cv.2, pa.2 = CollectionVersionAction.Keep) :
    try_start_delete_versions_at_sysdb_operator st =
      Except.ok ({ st with
          num_files_deleted := st.num_files_deleted + o.deleted_files.length },
        [Action.Respond ⟨st.collection_id, 0, 0⟩]) := by
  unfold try_start_delete_versions_at_sysdb_operator
  rw [hfile]
  simp only [hlog, hmode, hvtd, deleteOnlyVersions_eq_nil V hkeep]
  simp

/-- A delete-mode state whose classification holds only `Keep` versions. -/
def c9State : OState :=
  { baseState with
    delete_unused_file_output := some ⟨["a"]⟩
    delete_unused_log_output := some ()
    versions_to_delete_output :=
      some [(1, [(1, CollectionVersionAction.Keep)])]
    soft_deleted_collections_to_gc := [1] }

theorem no_delete_versions_reports_zeros_witness :
    c9State.cleanup_mode = CleanupMode.Delete ∧
    try_start_delete_versions_at_sysdb_operator c9State =
      Except.ok ({ c9State with
          num_files_deleted := c9State.num_files_deleted +
            (DeleteUnusedFilesOutput.mk ["a"]).deleted_files.length },
        [Action.Respond ⟨c9State.collection_id, 0, 0⟩]) :=
  ⟨rfl, no_delete_versions_reports_zeros c9State ⟨["a"]⟩
    [(1, [(1, CollectionVersionAction.Keep)])] rfl rfl rfl rfl
    (by decide) (by decide)⟩

lemma tsf_preserves_file_ref_counts (s s' : OState) (a : List Action)
    (h : try_start_delete_unused_files_operator s = Except.ok (s', a)) :
    s'.file_ref_counts = s.file_ref_counts := by
  rcases tsf_spec s s' a h with ⟨-, rfl, -⟩ | ⟨-, -, cid, vf, info, rest, -, -, rfl, -⟩
  · rfl
  · rfl

/-- The reference-count fold selected by a classification. -/
def refCountUpdate (act : CollectionVersionAction) (paths : List Path)
    (m : List (Path × Nat)) : List (Path × Nat) :=
  match act with
  | CollectionVersionAction.Keep => paths.foldl bumpRefCount m
  | CollectionVersionAction.Delete => paths.foldl zeroRefCount m

/-- On success, `handle_list_files_at_version_output` leaves the reference
counts exactly as the fold of the per-path update matching the pair's
classification. -/
lemma hl_ref_counts (st : OState) (output : ListFilesAtVersionOutput)
    (st' : OState) (acts : List Action) (vtd : VersionsToDeleteOutput)
    (versions : List (Version × CollectionVersionAction))
    (act : CollectionVersionAction)
    (hvtd : st.versions_to_delete_output = some vtd)
    (hcol : List.lookup output.collection_id vtd = some versions)
    (hver : List.lookup output.version versions = some act)
    (hok : handle_list_files_at_version_output st output = Except.ok (st', acts)) :
    st'.file_ref_counts =
      refCountUpdate act output.file_paths st.file_ref_counts := by
  unfold handle_list_files_at_version_output at hok
  rw [hvtd] at hok
  simp only [hcol, hver] at hok
  cases hc : checkEmptyFilePaths st output with
  | error e => rw [hc] at hok; cases hok
  | ok u =>
    rw [hc] at hok
    simp only at hok
    have h2 := tsf_preserves_file_ref_counts _ _ _ hok
    rw [h2]
    cases act <;> rfl

/-- Claim C1: on a `ListFiles` completion for a pair classified `Keep`, the
orchestrator increments the reference count of every returned path by one
(inserting 0 first when absent); for a pair classified `Delete` it inserts
absent paths with count 0 and never increments; and the path set submitted to
`DeleteFiles` is exactly the set of paths whose final count is 0. -/
theorem list_files_ref_count_and_zero_set
    (st : OState) (output : ListFilesAtVersionOutput) (st' : OState)
    (acts : List Action) (vtd : VersionsToDeleteOutput)
    (versions : List (Version × CollectionVersionAction))
    (act : CollectionVersionAction)
    (hvtd : st.versions_to_delete_output = some vtd)
    (hcol : List.lookup output.collection_id vtd = some versions)
    (hver : List.lookup output.version versions = some act)
    (hnd : output.file_paths.Nodup)
    (hok : handle_list_files_at_version_output st output = Except.ok (st', acts)) :
    ((act = CollectionVersionAction.Keep →
        ∀ p, (p ∈ output.file_paths →
            List.lookup p st'.file_ref_counts =
              some ((List.lookup p st.file_ref_counts).getD 0 + 1)) ∧
          (p ∉ output.file_paths →
            List.lookup p st'.file_ref_counts = List.lookup p st.file_ref_counts)) ∧
     (act = CollectionVersionAction.Delete →
        ∀ p, (p ∈ output.file_paths →
            List.lookup p st'.file_ref_counts =
              some ((List.lookup p st.file_ref_counts).getD 0)) ∧
          (p ∉ output.file_paths →
            List.lookup p st'.file_ref_counts = List.lookup p st.file_ref_counts))) ∧
    (∀ s s2 a2 fs t, (s.file_ref_counts.map Prod.fst).Nodup →
        try_start_delete_unused_files_operator s = Except.ok (s2, a2) →
        Action.DispatchDeleteFiles fs t ∈ a2 →
        ∀ q, q ∈ fs ↔ List.lookup q s.file_ref_counts = some 0) := by
  have hrc := hl_ref_counts st output st' acts vtd versions act hvtd hcol hver hok
  constructor
  · constructor
    · intro hact p
      subst hact
      rw [hrc]
      simp only [refCountUpdate]
      exact ⟨fun hmem => lookup_foldl_bump_mem _ _ _ hnd hmem,
        fun hnmem => lookup_foldl_bump_not_mem _ _ _ hnmem⟩
    · intro hact p
      subst hact
      rw [hrc]
      simp only [refCountUpdate]
      exact ⟨fun hmem => lookup_foldl_zero_mem _ _ _ hnd hmem,
        fun hnmem => lookup_foldl_zero_not_mem _ _ _ hnmem⟩
  · intro s s2 a2 fs t hkeys hts hmem q
    rcases tsf_spec s s2 a2 hts with ⟨rfl, -, -⟩ | ⟨-, -, cid, vf, info, rest, -, -, -, rfl⟩
    · cases hmem
    · rcases List.mem_singleton.mp hmem with heq
      cases heq
      exact mem_filePathsToDelete s.file_ref_counts hkeys q

/-- A version file with immutable collection info present. -/
def c1File : CollectionVersionFile := ⟨some ⟨"t", "dbid", "db"⟩, none⟩

/-- A state holding one pending list task, a known-unreferenced path and one
classified collection. -/
def c1State : OState :=
  { baseState with
    versions_to_delete_output := some [(1, [(2, CollectionVersionAction.Keep)])]
    pending_list_files_at_version_tasks := [(1, 2)]
    version_files := [(1, c1File)]
    file_ref_counts := [("old", 0)] }

/-- The state after the `ListFiles` completion `(1, 2, ["f1"])` in `c1State`. -/
def c1StateAfter : OState :=
  { c1State with
    file_ref_counts := [("old", 0), ("f1", 1)]
    pending_list_files_at_version_tasks := []
    tenant := some "t"
    database_name := some "db" }

theorem list_files_ref_count_and_zero_set_witness :
    handle_list_files_at_version_output c1State ⟨1, 2, ["f1"]⟩ =
      Except.ok (c1StateAfter, [Action.DispatchDeleteFiles ["old"] "t"]) ∧
    (((CollectionVersionAction.Keep = CollectionVersionAction.Keep →
        ∀ p, (p ∈ (⟨1, 2, ["f1"]⟩ : ListFilesAtVersionOutput).file_paths →
            List.lookup p c1StateAfter.file_ref_counts =
              some ((List.lookup p c1State.file_ref_counts).getD 0 + 1)) ∧
          (p ∉ (⟨1, 2, ["f1"]⟩ : ListFilesAtVersionOutput).file_paths →
            List.lookup p c1StateAfter.file_ref_counts =
              List.lookup p c1State.file_ref_counts)) ∧
      (CollectionVersionAction.Keep = CollectionVersionAction.Delete →
        ∀ p, (p ∈ (⟨1, 2, ["f1"]⟩ : ListFilesAtVersionOutput).file_paths →
            List.lookup p c1StateAfter.file_ref_counts =
              some ((List.lookup p c1State.file_ref_counts).getD 0)) ∧
          (p ∉ (⟨1, 2, ["f1"]⟩ : ListFilesAtVersionOutput).file_paths →
            List.lookup p c1StateAfter.file_ref_counts =
              List.lookup p c1State.file_ref_counts))) ∧
     (∀ s s2 a2 fs t, (s.file_ref_counts.map Prod.fst).Nodup →
        try_start_delete_unused_files_operator s = Except.ok (s2, a2) →
        Action.DispatchDeleteFiles fs t ∈ a2 →
        ∀ q, q ∈ fs ↔ List.lookup q s.file_ref_counts = some 0)) :=
  ⟨rfl, list_files_ref_count_and_zero_set c1State ⟨1, 2, ["f1"]⟩
    c1StateAfter [Action.DispatchDeleteFiles ["old"] "t"]
    [(1, [(2, CollectionVersionAction.Keep)])]
    [(2, CollectionVersionAction.Keep)] CollectionVersionAction.Keep
    rfl (by decide) (by decide) (by decide) rfl⟩

section DeleteLogsLemmas

lemma lookup_eq_none_of_not_key {β : Type} (l : List (CollectionId × β))
    (c : CollectionId) (h : ∀ x ∈ l, x.1 ≠ c) : List.lookup c l = none := by
  induction l with
  | nil => rfl
  | cons x rest ih =>
    obtain ⟨k, v⟩ := x
    have hk : k ≠ c := h (k, v) (List.mem_cons_self _ _)
    simp only [List.lookup, beq_false_of_ne (fun hh : c = k => hk hh.symm)]
    exact ih (fun y hy => h y (List.mem_cons_of_mem _ hy))

lemma gc_cons (vf : List (CollectionId × CollectionVersionFile))
    (c : CollectionId) (vs : List (Version × CollectionVersionAction))
    (rest : VersionsToDeleteOutput) (out : List (CollectionId × Nat))
    (h : computeCollectionsToGarbageCollect vf ((c, vs) :: rest) = Except.ok out) :
    (minKeptPositiveVersion vs = none ∧
      computeCollectionsToGarbageCollect vf rest = Except.ok out) ∨
    (∃ mv file hist vi info restMap,
      minKeptPositiveVersion vs = some mv ∧
      List.lookup c vf = some file ∧
      file.version_history = some hist ∧
      hist.versions.find? (fun x => x.version == mv) = some vi ∧
      vi.collection_info_mutable = some info ∧
      ¬ info.current_log_position < 0 ∧
      computeCollectionsToGarbageCollect vf rest = Except.ok restMap ∧
      out = (c, info.current_log_position.toNat + 1) :: restMap) := by
  unfold computeCollectionsToGarbageCollect at h
  split at h
  · rename_i hm
    exact Or.inl ⟨hm, h⟩
  · rename_i mv hm
    right
    split at h
    · cases h
    · rename_i file hfile
      split at h
      · cases h
      · rename_i hist hhist
        split at h
        · cases h
        · rename_i vi hvi
          split at h
          · cases h
          · rename_i info hinfo
            split at h
            · cases h
            · rename_i hneg
              split at h
              · cases h
              · rename_i restMap hrest
                cases h
                exact ⟨mv, file, hist, vi, info, restMap, hm, hfile, hhist,
                  hvi, hinfo, hneg, hrest, rfl⟩

lemma gc_keys (vf : List (CollectionId × CollectionVersionFile)) :
    ∀ (V : VersionsToDeleteOutput) (gcm : List (CollectionId × Nat)),
    computeCollectionsToGarbageCollect vf V = Except.ok gcm →
    ∀ x ∈ gcm, ∃ vs mv, (x.1, vs) ∈ V ∧ minKeptPositiveVersion vs = some mv := by
  intro V
  induction V with
  | nil =>
    intro gcm h x hx
    cases h
    cases hx
  | cons cv rest ih =>
    obtain ⟨c, vs⟩ := cv
    intro gcm h x hx
    rcases gc_cons vf c vs rest gcm h with ⟨hm, hrest⟩ |
      ⟨mv, file, hist, vi, info, restMap, hm, -, -, -, -, -, hrest, rfl⟩
    · obtain ⟨vs2, mv2, hmem, hmk⟩ := ih gcm hrest x hx
      exact ⟨vs2, mv2, List.mem_cons_of_mem _ hmem, hmk⟩
    · rcases List.mem_cons.mp hx with rfl | hx2
      · exact ⟨vs, mv, List.mem_cons_self _ _, hm⟩
      · obtain ⟨vs2, mv2, hmem, hmk⟩ := ih restMap hrest x hx2
        exact ⟨vs2, mv2, List.mem_cons_of_mem _ hmem, hmk⟩

lemma gc_lookup_none (vf : List (CollectionId × CollectionVersionFile)) :
    ∀ (V : VersionsToDeleteOutput) (gcm : List (CollectionId × Nat))
      (c : CollectionId) (vs : List (Version × CollectionVersionAction)),
    computeCollectionsToGarbageCollect vf V = Except.ok gcm →
    (V.map Prod.fst).Nodup → (c, vs) ∈ V → minKeptPositiveVersion vs = none →
    List.lookup c gcm = none := by
  intro V
  induction V with
  | nil =>
    intro gcm c vs h hnd hmem
    cases hmem
  | cons cv rest ih =>
    obtain ⟨c0, vs0⟩ := cv
    intro gcm c vs h hnd hmem hmk
    simp only [List.map_cons, List.nodup_cons] at hnd
    rcases gc_cons vf c0 vs0 rest gcm h with ⟨hm, hrest⟩ |
      ⟨mv, file, hist, vi, info, restMap, hm, -, -, -, -, -, hrest, rfl⟩
    · rcases List.mem_cons.mp hmem with heq | hmem2
      · cases heq
        apply lookup_eq_none_of_not_key
        intro x hx
        obtain ⟨vs2, mv2, hmem3, -⟩ := gc_keys vf rest gcm hrest x hx
        exact fun hxc => hnd.1 (hxc ▸ List.mem_map_of_mem Prod.fst hmem3)
      · exact ih gcm c vs hrest hnd.2 hmem2 hmk
    · rcases List.mem_cons.mp hmem with heq | hmem2
      · cases heq
        rw [hm] at hmk
        cases hmk
      · have hc : c ≠ c0 := fun hh =>
          hnd.1 (hh ▸ List.mem_map_of_mem Prod.fst hmem2)
        simp only [List.lookup, beq_false_of_ne hc]
        exact ih restMap c vs hrest hnd.2 hmem2 hmk

lemma gc_lookup_pos (vf : List (CollectionId × CollectionVersionFile)) :
    ∀ (V : VersionsToDeleteOutput) (gcm : List (CollectionId × Nat))
      (c : CollectionId) (vs : List (Version × CollectionVersionAction))
      (mv : Version) (file : CollectionVersionFile) (hist : VersionHistory)
      (vi : VersionInfo) (info : CollectionInfoMutable),
    computeCollectionsToGarbageCollect vf V = Except.ok gcm →
    (V.map Prod.fst).Nodup → (c, vs) ∈ V →
    minKeptPositiveVersion vs = some mv →
    List.lookup c vf = some file →
    file.version_history = some hist →
    hist.versions.find? (fun x => x.version == mv) = some vi →
    vi.collection_info_mutable = some info →
    List.lookup c gcm = some (info.current_log_position.toNat + 1) := by
  intro V
  induction V with
  | nil =>
    intro gcm c vs mv file hist vi info h hnd hmem
    cases hmem
  | cons cv rest ih =>
    obtain ⟨c0, vs0⟩ := cv
    intro gcm c vs mv file hist vi info h hnd hmem hmk hfile hhist hvi hinfo
    simp only [List.map_cons, List.nodup_cons] at hnd
    rcases gc_cons vf c0 vs0 rest gcm h with ⟨hm, hrest⟩ |
      ⟨mv2, file2, hist2, vi2, info2, restMap, hm, hfile2, hhist2, hvi2,
        hinfo2, -, hrest, rfl⟩
    · rcases List.mem_cons.mp hmem with heq | hmem2
      · cases heq
        rw [hm] at hmk
        cases hmk
      · exact ih gcm c vs mv file hist vi info hrest hnd.2 hmem2 hmk hfile
          hhist hvi hinfo
    · rcases List.mem_cons.mp hmem with heq | hmem2
      · cases heq
        rw [hm] at hmk
        cases hmk
        rw [hfile] at hfile2
        cases hfile2
        rw [hhist] at hhist2
        cases hhist2
        rw [hvi] at hvi2
        cases hvi2
        rw [hinfo] at hinfo2
        cases hinfo2
        simp [List.lookup]
      · have hc : c ≠ c0 := fun hh =>
          hnd.1 (hh ▸ List.mem_map_of_mem Prod.fst hmem2)
        simp only [List.lookup, beq_false_of_ne hc]
        exact ih restMap c vs mv file hist vi info hrest hnd.2 hmem2 hmk
          hfile hhist hvi hinfo

lemma gc_negative_error (vf : List (CollectionId × CollectionVersionFile)) :
    ∀ (V : VersionsToDeleteOutput),
    (∀ c vs mv, (c, vs) ∈ V → minKeptPositiveVersion vs = some mv →
      ∃ file hist vi info, List.lookup c vf = some file ∧
        file.version_history = some hist ∧
        hist.versions.find? (fun x => x.version == mv) = some vi ∧
        vi.collection_info_mutable = some info) →
    (∃ c vs mv file hist vi info, (c, vs) ∈ V ∧
      minKeptPositiveVersion vs = some mv ∧
      List.lookup c vf = some file ∧
      file.version_history = some hist ∧
      hist.versions.find? (fun x => x.version == mv) = some vi ∧
      vi.collection_info_mutable = some info ∧
      info.current_log_position < 0) →
    computeCollectionsToGarbageCollect vf V = Except.error
      (GCError.InvariantViolation ("Expected log offset to be unsigned")) := by
  intro V
  induction V with
  | nil =>
    rintro - ⟨c, vs, mv, file, hist, vi, info, hmem, -⟩
    cases hmem
  | cons cv rest ih =>
    obtain ⟨c0, vs0⟩ := cv
    rintro hwf ⟨c, vs, mv, file, hist, vi, info, hmem, hmk, hfile, hhist, hvi,
      hinfo, hneg⟩
    unfold computeCollectionsToGarbageCollect
    cases hm : minKeptPositiveVersion vs0 with
    | none =>
      rcases List.mem_cons.mp hmem with heq | hmem2
      · cases heq
        rw [hm] at hmk
        cases hmk
      · exact ih (fun c2 vs2 mv2 hm2 hk2 =>
            hwf c2 vs2 mv2 (List.mem_cons_of_mem _ hm2) hk2)
          ⟨c, vs, mv, file, hist, vi, info, hmem2, hmk, hfile, hhist, hvi,
            hinfo, hneg⟩
    | some mv0 =>
      obtain ⟨file0, hist0, vi0, info0, hfile0, hhist0, hvi0, hinfo0⟩ :=
        hwf c0 vs0 mv0 (List.mem_cons_self _ _) hm
      simp only [hfile0, hhist0, hvi0, hinfo0]
      by_cases hneg0 : info0.current_log_position < 0
      · rw [if_pos hneg0]
      · rw [if_neg hneg0]
        rcases List.mem_cons.mp hmem with heq | hmem2
        · cases heq
          rw [hm] at hmk
          cases hmk
          rw [hfile] at hfile0
          cases hfile0
          rw [hhist] at hhist0
          cases hhist0
          rw [hvi] at hvi0
          cases hvi0
          rw [hinfo] at hinfo0
          cases hinfo0
          exact absurd hneg hneg0
        · rw [ih (fun c2 vs2 mv2 hm2 hk2 =>
              hwf c2 vs2 mv2 (List.mem_cons_of_mem _ hm2) hk2)
            ⟨c, vs, mv, file, hist, vi, info, hmem2, hmk, hfile, hhist, hvi,
              hinfo, hneg⟩]

end DeleteLogsLemmas

/-- Claim C3: the `DeleteLogs` input maps every collection with a Kept version
`> 0` to `current_log_position(v*) + 1` where `v*` is its minimum Kept
positive version and the position is that version's entry in the collection's
version history; collections with no Kept positive version are absent from the
truncation map; a negative stored log position aborts with
`InvariantViolation`; and the destroy set equals the eligible soft-deleted
set. -/
theorem delete_logs_destroy_and_truncation (st : OState)
    (V : VersionsToDeleteOutput)
    (hpend : st.pending_mark_versions_at_sysdb_tasks = [])
    (hvtd : st.versions_to_delete_output = some V)
    (hnd : (V.map Prod.fst).Nodup) :
    (∀ st2 acts,
      try_start_delete_unused_logs_operator st = Except.ok (st2, acts) →
      ∃ gcm, st2 = st ∧
        acts = [Action.DispatchDeleteLogs st.soft_deleted_collections_to_gc gcm] ∧
        (∀ c vs, (c, vs) ∈ V → minKeptPositiveVersion vs = none →
          List.lookup c gcm = none) ∧
        (∀ c vs mv file hist vi info, (c, vs) ∈ V →
          minKeptPositiveVersion vs = some mv →
          List.lookup c st.version_files = some file →
          file.version_history = some hist →
          hist.versions.find? (fun x => x.version == mv) = some vi →
          vi.collection_info_mutable = some info →
          List.lookup c gcm = some (info.current_log_position.toNat + 1))) ∧
    ((∀ c vs mv, (c, vs) ∈ V → minKeptPositiveVersion vs = some mv →
        ∃ file hist vi info, List.lookup c st.version_files = some file ∧
          file.version_history = some hist ∧
          hist.versions.find? (fun x => x.version == mv) = some vi ∧
          vi.collection_info_mutable = some info) →
      (∃ c vs mv file hist vi info, (c, vs) ∈ V ∧
        minKeptPositiveVersion vs = some mv ∧
        List.lookup c st.version_files = some file ∧
        file.version_history = some hist ∧
        hist.versions.find? (fun x => x.version == mv) = some vi ∧
        vi.collection_info_mutable = some info ∧
        info.current_log_position < 0) →
      try_start_delete_unused_logs_operator st = Except.error
        (GCError.InvariantViolation ("Expected log offset to be unsigned"))) := by
  have hguard : ¬ st.pending_mark_versions_at_sysdb_tasks ≠ [] :=
    not_not_intro hpend
  constructor
  · intro st2 acts h
    unfold try_start_delete_unused_logs_operator at h
    rw [if_neg hguard] at h
    simp only [hvtd] at h
    cases hgc : computeCollectionsToGarbageCollect st.version_files V <;>
      simp only [hgc] at h
    · cases h
    · rename_i gcm
      simp only [Except.ok.injEq, Prod.mk.injEq] at h
      obtain ⟨hst, hacts⟩ := h
      refine ⟨gcm, hst.symm, hacts.symm, ?_, ?_⟩
      · intro c vs hmem hmk
        exact gc_lookup_none st.version_files V gcm c vs hgc hnd hmem hmk
      · intro c vs mv file hist vi info hmem hmk hfile hhist hvi hinfo
        exact gc_lookup_pos st.version_files V gcm c vs mv file hist vi info
          hgc hnd hmem hmk hfile hhist hvi hinfo
  · intro hwf hneg
    unfold try_start_delete_unused_logs_operator
    rw [if_neg hguard]
    simp only [hvtd, gc_negative_error st.version_files V hwf hneg]

/-- A version file whose history holds versions 1 and 2 at log positions 5
and 9. -/
def c3File : CollectionVersionFile :=
  ⟨some ⟨"t", "dbid", "db"⟩, some ⟨[⟨1, some ⟨5⟩⟩, ⟨2, some ⟨9⟩⟩]⟩⟩

/-- A classification where collection 1 keeps versions 0, 1 and 2 and
collection 2 keeps only version 0. -/
def c3V : VersionsToDeleteOutput :=
  [(1, [(1, CollectionVersionAction.Keep), (2, CollectionVersionAction.Keep),
        (0, CollectionVersionAction.Keep)]),
   (2, [(0, CollectionVersionAction.Keep), (3, CollectionVersionAction.Delete)])]

/-- A state ready to dispatch `DeleteLogs`. -/
def c3State : OState :=
  { baseState with
    versions_to_delete_output := some c3V
    version_files := [(1, c3File), (2, c3File)]
    soft_deleted_collections_to_gc := [9] }

theorem delete_logs_destroy_and_truncation_witness :
    c3State.pending_mark_versions_at_sysdb_tasks = [] ∧
    ((∀ st2 acts,
      try_start_delete_unused_logs_operator c3State = Except.ok (st2, acts) →
      ∃ gcm, st2 = c3State ∧
        acts = [Action.DispatchDeleteLogs
          c3State.soft_deleted_collections_to_gc gcm] ∧
        (∀ c vs, (c, vs) ∈ c3V → minKeptPositiveVersion vs = none →
          List.lookup c gcm = none) ∧
        (∀ c vs mv file hist vi info, (c, vs) ∈ c3V →
          minKeptPositiveVersion vs = some mv →
          List.lookup c c3State.version_files = some file →
          file.version_history = some hist →
          hist.versions.find? (fun x => x.version == mv) = some vi →
          vi.collection_info_mutable = some info →
          List.lookup c gcm = some (info.current_log_position.toNat + 1))) ∧
    ((∀ c vs mv, (c, vs) ∈ c3V → minKeptPositiveVersion vs = some mv →
        ∃ file hist vi info, List.lookup c c3State.version_files = some file ∧
          file.version_history = some hist ∧
          hist.versions.find? (fun x => x.version == mv) = some vi ∧
          vi.collection_info_mutable = some info) →
      (∃ c vs mv file hist vi info, (c, vs) ∈ c3V ∧
        minKeptPositiveVersion vs = some mv ∧
        List.lookup c c3State.version_files = some file ∧
        file.version_history = some hist ∧
        hist.versions.find? (fun x => x.version == mv) = some vi ∧
        vi.collection_info_mutable = some info ∧
        info.current_log_position < 0) →
      try_start_delete_unused_logs_operator c3State = Except.error
        (GCError.InvariantViolation ("Expected log offset to be unsigned")))) :=
  ⟨rfl, delete_logs_destroy_and_truncation c3State c3V rfl rfl (by decide)⟩

section MarkAndListLemmas

/-- Recognises a `MarkVersions` dispatch for collection `c`. -/
def isMarkFor (c : CollectionId) (a : Action) : Bool :=
  match a with
  | Action.DispatchMarkVersions c2 _ _ _ => c2 == c
  | _ => false

/-- The versions of a classification that are classified `Delete`. -/
def deleteVersionList
    (vs : List (Version × CollectionVersionAction)) : List Version :=
  vs.filterMap (fun pa =>
    if pa.2 = CollectionVersionAction.Delete then some pa.1 else none)

lemma dml_cons (vf : List (CollectionId × CollectionVersionFile))
    (c : CollectionId) (vs : List (Version × CollectionVersionAction))
    (rest : VersionsToDeleteOutput) (out : List Action)
    (h : dispatchMarkAndList vf ((c, vs) :: rest) = Except.ok out) :
    ∃ file info restActs, List.lookup c vf = some file ∧
      file.collection_info_immutable = some info ∧
      dispatchMarkAndList vf rest = Except.ok restActs ∧
      out = Action.DispatchMarkVersions c (deleteVersionList vs)
          info.tenant_id info.database_id ::
        (vs.map (fun pa => Action.DispatchListFiles c pa.1) ++ restActs) := by
  unfold dispatchMarkAndList at h
  split at h
  · cases h
  · rename_i file hfile
    split at h
    · cases h
    · rename_i info hinfo
      split at h
      · cases h
      · rename_i restActs hrest
        cases h
        exact ⟨file, info, restActs, hfile, hinfo, hrest, rfl⟩

lemma dml_mark_keys (vf : List (CollectionId × CollectionVersionFile)) :
    ∀ (V : VersionsToDeleteOutput) (acts : List Action),
    dispatchMarkAndList vf V = Except.ok acts →
    ∀ c2 vs2 t d, Action.DispatchMarkVersions c2 vs2 t d ∈ acts →
      c2 ∈ V.map Prod.fst := by
  intro V
  induction V with
  | nil =>
    intro acts h c2 vs2 t d hmem
    cases h
    cases hmem
  | cons cv rest ih =>
    obtain ⟨c, vs⟩ := cv
    intro acts h c2 vs2 t d hmem
    obtain ⟨file, info, restActs, -, -, hrest, rfl⟩ := dml_cons vf c vs rest acts h
    rcases List.mem_cons.mp hmem with heq | hmem2
    · cases heq
      exact List.mem_cons_self _ _
    · rcases List.mem_append.mp hmem2 with hmem3 | hmem4
      · obtain ⟨pa, -, heq⟩ := List.mem_map.mp hmem3
        cases heq
      · exact List.mem_cons_of_mem _ (ih restActs hrest c2 vs2 t d hmem4)

lemma dml_list_keys (vf : List (CollectionId × CollectionVersionFile)) :
    ∀ (V : VersionsToDeleteOutput) (acts : List Action),
    dispatchMarkAndList vf V = Except.ok acts →
    ∀ c2 v2, Action.DispatchListFiles c2 v2 ∈ acts → c2 ∈ V.map Prod.fst := by
  intro V
  induction V with
  | nil =>
    intro acts h c2 v2 hmem
    cases h
    cases hmem
  | cons cv rest ih =>
    obtain ⟨c, vs⟩ := cv
    intro acts h c2 v2 hmem
    obtain ⟨file, info, restActs, -, -, hrest, rfl⟩ := dml_cons vf c vs rest acts h
    rcases List.mem_cons.mp hmem with heq | hmem2
    · cases heq
    · rcases List.mem_append.mp hmem2 with hmem3 | hmem4
      · obtain ⟨pa, -, heq⟩ := List.mem_map.mp hmem3
        cases heq
        exact List.mem_cons_self _ _
      · exact List.mem_cons_of_mem _ (ih restActs hrest c2 v2 hmem4)

lemma dml_mark_filter (vf : List (CollectionId × CollectionVersionFile)) :
    ∀ (V : VersionsToDeleteOutput) (acts : List Action),
    dispatchMarkAndList vf V = Except.ok acts →
    (V.map Prod.fst).Nodup →
    ∀ c vs file info, (c, vs) ∈ V → List.lookup c vf = some file →
      file.collection_info_immutable = some info →
      acts.filter (isMarkFor c) =
        [Action.DispatchMarkVersions c (deleteVersionList vs)
          info.tenant_id info.database_id] := by
  intro V
  induction V with
  | nil =>
    intro acts h hnd c vs file info hmem
    cases hmem
  | cons cv rest ih =>
    obtain ⟨c0, vs0⟩ := cv
    intro acts h hnd c vs file info hmem hfile hinfo
    obtain ⟨file0, info0, restActs, hfile0, hinfo0, hrest, rfl⟩ :=
      dml_cons vf c0 vs0 rest acts h
    simp only [List.map_cons, List.nodup_cons] at hnd
    have hmapnil : (vs0.map
        (fun pa => Action.DispatchListFiles c0 pa.1)).filter (isMarkFor c) = [] := by
      rw [List.filter_eq_nil_iff]
      intro a ha
      obtain ⟨pa, -, rfl⟩ := List.mem_map.mp ha
      simp [isMarkFor]
    rcases List.mem_cons.mp hmem with heq | hmem2
    · injection heq with hc1 hc2
      subst hc1
      subst hc2
      rw [hfile0] at hfile
      cases hfile
      rw [hinfo0] at hinfo
      cases hinfo
      have hrestnil : restActs.filter (isMarkFor c) = [] := by
        rw [List.filter_eq_nil_iff]
        intro a ha hp
        cases a with
        | DispatchMarkVersions c2 vs2 t d =>
          simp only [isMarkFor, beq_iff_eq] at hp
          exact hnd.1 (hp ▸ dml_mark_keys vf rest restActs hrest c2 vs2 t d ha)
        | DispatchListFiles _ _ => simp [isMarkFor] at hp
        | DispatchDeleteLogs _ _ => simp [isMarkFor] at hp
        | DispatchDeleteFiles _ _ => simp [isMarkFor] at hp
        | DispatchDeleteVersions _ _ _ _ => simp [isMarkFor] at hp
        | FinishCollectionDeletion _ _ _ => simp [isMarkFor] at hp
        | Respond _ => simp [isMarkFor] at hp
      rw [List.filter_cons_of_pos, List.filter_append, hmapnil, hrestnil]
      · rfl
      · simp [isMarkFor]
    · have hc : c ≠ c0 := fun hh =>
        hnd.1 (hh ▸ List.mem_map_of_mem Prod.fst hmem2)
      rw [List.filter_cons_of_neg, List.filter_append, hmapnil]
      · simp only [List.nil_append]
        exact ih restActs hrest hnd.2 c vs file info hmem2 hfile hinfo
      · simp [isMarkFor, beq_false_of_ne (fun hh : c0 = c => hc hh.symm)]

lemma dml_list_count (vf : List (CollectionId × CollectionVersionFile)) :
    ∀ (V : VersionsToDeleteOutput) (acts : List Action),
    dispatchMarkAndList vf V = Except.ok acts →
    (V.map Prod.fst).Nodup →
    ∀ c vs, (c, vs) ∈ V → (vs.map Prod.fst).Nodup →
      ∀ v a, (v, a) ∈ vs →
        acts.count (Action.DispatchListFiles c v) = 1 := by
  intro V
  induction V with
  | nil =>
    intro acts h hnd c vs hmem
    cases hmem
  | cons cv rest ih =>
    obtain ⟨c0, vs0⟩ := cv
    intro acts h hnd c vs hmem hndv v a hva
    obtain ⟨file0, info0, restActs, hfile0, hinfo0, hrest, rfl⟩ :=
      dml_cons vf c0 vs0 rest acts h
    simp only [List.map_cons, List.nodup_cons] at hnd
    rw [List.count_cons, List.count_append]
    rcases List.mem_cons.mp hmem with heq | hmem2
    · injection heq with hc1 hc2
      subst hc1
      subst hc2
      have hmark : (Action.DispatchListFiles c v ==
          Action.DispatchMarkVersions c (deleteVersionList vs)
            info0.tenant_id info0.database_id) = false :=
        beq_false_of_ne (fun hh => by cases hh)
      have hmap : (vs.map (fun pa => Action.DispatchListFiles c pa.1)).count
          (Action.DispatchListFiles c v) = 1 := by
        have hinj : Function.Injective
            (fun x : Version => Action.DispatchListFiles c x) := by
          intro x y hxy
          cases hxy
          rfl
        have : vs.map (fun pa => Action.DispatchListFiles c pa.1) =
            (vs.map Prod.fst).map (fun x => Action.DispatchListFiles c x) := by
          rw [List.map_map]
          rfl
        rw [this, List.count_map_of_injective _ _ hinj,
          List.count_eq_one_of_mem hndv (List.mem_map_of_mem Prod.fst hva)]
      have hrest0 : restActs.count (Action.DispatchListFiles c v) = 0 := by
        rw [List.count_eq_zero]
        intro hmem3
        exact hnd.1 (dml_list_keys vf rest restActs hrest c v hmem3)
      rw [hmap, hrest0]
      simp [hmark]
    · have hc : c ≠ c0 := fun hh =>
        hnd.1 (hh ▸ List.mem_map_of_mem Prod.fst hmem2)
      have hmark : (Action.DispatchListFiles c v ==
          Action.DispatchMarkVersions c0 (deleteVersionList vs0)
            info0.tenant_id info0.database_id) = false :=
        beq_false_of_ne (fun hh => by cases hh)
      have hmap : (vs0.map (fun pa => Action.DispatchListFiles c0 pa.1)).count
          (Action.DispatchListFiles c v) = 0 := by
        rw [List.count_eq_zero]
        intro hmem3
        obtain ⟨pa, -, heq⟩ := List.mem_map.mp hmem3
        cases heq
        exact hc rfl
      simp [hmap, hmark, ih restActs hrest hnd.2 c vs hmem2 hndv v a hva]

end MarkAndListLemmas

/-- Claim C8: for every collection in a non-empty classification output,
exactly one `MarkVersions` task is dispatched and its payload holds exactly
the versions classified `Delete` for that collection, while one `ListFiles`
task is dispatched per classified `(collection, version)` pair regardless of
its action. -/
theorem mark_and_list_dispatch (st : OState) (V : VersionsToDeleteOutput)
    (st' : OState) (acts : List Action)
    (hne : V ≠ [])
    (hndK : (V.map Prod.fst).Nodup)
    (hok : handle_compute_versions_to_delete_output st V = Except.ok (st', acts)) :
    ∀ c vs, (c, vs) ∈ V →
      (∀ file info, List.lookup c st.version_files = some file →
        file.collection_info_immutable = some info →
        acts.filter (isMarkFor c) =
          [Action.DispatchMarkVersions c (deleteVersionList vs)
            info.tenant_id info.database_id]) ∧
      ((vs.map Prod.fst).Nodup → ∀ v a, (v, a) ∈ vs →
        acts.count (Action.DispatchListFiles c v) = 1) := by
  unfold handle_compute_versions_to_delete_output at hok
  rw [if_neg (by simpa using hne)] at hok
  cases hdml : dispatchMarkAndList st.version_files V <;> rw [hdml] at hok
  · cases hok
  · rename_i acts0
    simp only [Except.ok.injEq, Prod.mk.injEq] at hok
    obtain ⟨-, hacts⟩ := hok
    subst hacts
    intro c vs hmem
    constructor
    · intro file info hfile hinfo
      exact dml_mark_filter st.version_files V acts0 hdml hndK c vs file info
        hmem hfile hinfo
    · intro hndv v a hva
      exact dml_list_count st.version_files V acts0 hdml hndK c vs hmem hndv v a hva

/-- A classification with a Keep and Delete version for collection 1 and a
Delete version for collection 2. -/
def c8V : VersionsToDeleteOutput :=
  [(1, [(0, CollectionVersionAction.Keep), (1, CollectionVersionAction.Delete)]),
   (2, [(5, CollectionVersionAction.Delete)])]

/-- A state holding version files for collections 1 and 2. -/
def c8State : OState :=
  { baseState with version_files := [(1, c1File), (2, c1File)] }

theorem mark_and_list_dispatch_witness :
    handle_compute_versions_to_delete_output c8State c8V =
      Except.ok ({ c8State with
          pending_list_files_at_version_tasks := [(1, 0), (1, 1), (2, 5)]
          pending_mark_versions_at_sysdb_tasks := [1, 2]
          versions_to_delete_output := some c8V },
        [Action.DispatchMarkVersions 1 [1] "t" "dbid",
         Action.DispatchListFiles 1 0, Action.DispatchListFiles 1 1,
         Action.DispatchMarkVersions 2 [5] "t" "dbid",
         Action.DispatchListFiles 2 5]) ∧
    (∀ c vs, (c, vs) ∈ c8V →
      (∀ file info, List.lookup c c8State.version_files = some file →
        file.collection_info_immutable = some info →
        ([Action.DispatchMarkVersions 1 [1] "t" "dbid",
          Action.DispatchListFiles 1 0, Action.DispatchListFiles 1 1,
          Action.DispatchMarkVersions 2 [5] "t" "dbid",
          Action.DispatchListFiles 2 5].filter (isMarkFor c)) =
          [Action.DispatchMarkVersions c (deleteVersionList vs)
            info.tenant_id info.database_id]) ∧
      ((vs.map Prod.fst).Nodup → ∀ v a, (v, a) ∈ vs →
        ([Action.DispatchMarkVersions 1 [1] "t" "dbid",
          Action.DispatchListFiles 1 0, Action.DispatchListFiles 1 1,
          Action.DispatchMarkVersions 2 [5] "t" "dbid",
          Action.DispatchListFiles 2 5].count
            (Action.DispatchListFiles c v)) = 1)) :=
  ⟨rfl, mark_and_list_dispatch c8State c8V
    { c8State with
      pending_list_files_at_version_tasks := [(1, 0), (1, 1), (2, 5)]
      pending_mark_versions_at_sysdb_tasks := [1, 2]
      versions_to_delete_output := some c8V }
    [Action.DispatchMarkVersions 1 [1] "t" "dbid",
     Action.DispatchListFiles 1 0, Action.DispatchListFiles 1 1,
     Action.DispatchMarkVersions 2 [5] "t" "dbid",
     Action.DispatchListFiles 2 5]
    (by decide) (by decide) rfl⟩

section HardDeleteLemmas

lemma bfa_mem (tenant database_name : Option String) :
    ∀ (ordered : List CollectionId) (acts : List Action),
    buildFinishActions tenant database_name ordered = Except.ok acts →
    ∀ t d c, Action.FinishCollectionDeletion t d c ∈ acts →
      tenant = some t ∧ database_name = some d := by
  intro ordered
  induction ordered with
  | nil =>
    intro acts h t d c hmem
    cases h
    cases hmem
  | cons c0 rest ih =>
    intro acts h t d c hmem
    unfold buildFinishActions at h
    split at h
    · cases h
    · rename_i t0
      split at h
      · cases h
      · rename_i d0
        split at h
        · cases h
        · rename_i restActs hrest
          cases h
          rcases List.mem_cons.mp hmem with heq | hmem2
          · injection heq with h1 h2 h3
            subst h1
            subst h2
            exact ⟨rfl, rfl⟩
          · exact ih restActs hrest t d c hmem2

/-- The finish list produced by `buildFinishActions` on success: one
`FinishCollectionDeletion` per collection, in order. -/
lemma bfa_ok (t d : String) :
    ∀ (ordered : List CollectionId),
    buildFinishActions (some t) (some d) ordered =
      Except.ok (ordered.map (Action.FinishCollectionDeletion t d)) := by
  intro ordered
  induction ordered with
  | nil => rfl
  | cons c0 rest ih =>
    unfold buildFinishActions
    rw [ih]
    rfl

lemma hdvo_cases (st : OState) (vs : List Version) (st' : OState)
    (acts : List Action)
    (h : handle_delete_versions_output st vs = Except.ok (st', acts)) :
    (st.num_pending_tasks - 1 ≠ 0 ∧
      st' = { st with
        num_versions_deleted := st.num_versions_deleted + vs.length
        num_pending_tasks := st.num_pending_tasks - 1 } ∧ acts = []) ∨
    (st.num_pending_tasks - 1 = 0 ∧ ∃ graph ordered finishActs,
      st.graph = some graph ∧
      computeHardDeleteList graph st.soft_deleted_collections_to_gc =
        Except.ok ordered ∧
      buildFinishActions st.tenant st.database_name ordered =
        Except.ok finishActs ∧
      st' = { st with
        num_versions_deleted := st.num_versions_deleted + vs.length
        num_pending_tasks := st.num_pending_tasks - 1 } ∧
      acts = finishActs ++ [Action.Respond ⟨st.collection_id,
        st.num_files_deleted, st.num_versions_deleted + vs.length⟩]) := by
  unfold handle_delete_versions_output at h
  by_cases hz : st.num_pending_tasks - 1 = 0
  · right
    refine ⟨hz, ?_⟩
    rw [if_pos hz] at h
    split at h
    · cases h
    · rename_i graph hgraph
      split at h
      · cases h
      · rename_i ordered hord
        split at h
        · cases h
        · rename_i finishActs hfin
          simp only [Except.ok.injEq, Prod.mk.injEq] at h
          obtain ⟨hst, hacts⟩ := h
          exact ⟨graph, ordered, finishActs, hgraph, hord, hfin, hst.symm,
            hacts.symm⟩
  · left
    rw [if_neg hz] at h
    simp only [Except.ok.injEq, Prod.mk.injEq] at h
    obtain ⟨hst, hacts⟩ := h
    exact ⟨hz, hst.symm, hacts.symm⟩

end HardDeleteLemmas

/-- Claim C10: every `finish_collection_deletion` call of a run uses the
single tenant and database name recorded by
`try_start_delete_unused_files_operator` from the `collection_info_immutable`
of the first value of the version-files map (not from the per-collection
version file of the collection being finalized), and a first version file
lacking `collection_info_immutable` aborts the run with
`InvariantViolation`. -/
theorem finish_uses_first_version_file_tenant :
    (∀ (st : OState) (c0 : CollectionId) (vf0 : CollectionVersionFile)
        (rest : List (CollectionId × CollectionVersionFile)),
      st.version_files = (c0, vf0) :: rest →
      st.pending_list_files_at_version_tasks = [] →
      st.pending_mark_versions_at_sysdb_tasks = [] →
      (vf0.collection_info_immutable = none →
        try_start_delete_unused_files_operator st = Except.error
          (GCError.InvariantViolation
            ("Expected collection_info_immutable to be set"))) ∧
      (∀ info, vf0.collection_info_immutable = some info →
        try_start_delete_unused_files_operator st = Except.ok
          ({ st with tenant := some info.tenant_id
                     database_name := some info.database_name },
           [Action.DispatchDeleteFiles (filePathsToDelete st.file_ref_counts)
             info.tenant_id]))) ∧
    (∀ (st : OState) (vs : List Version) (st' : OState) (acts : List Action)
        (t d : String) (c : CollectionId),
      handle_delete_versions_output st vs = Except.ok (st', acts) →
      Action.FinishCollectionDeletion t d c ∈ acts →
      st.tenant = some t ∧ st.database_name = some d) := by
  constructor
  · intro st c0 vf0 rest hvf hlist hmark
    have hg1 : ¬ st.pending_list_files_at_version_tasks ≠ [] :=
      not_not_intro hlist
    have hg2 : ¬ st.pending_mark_versions_at_sysdb_tasks ≠ [] :=
      not_not_intro hmark
    constructor
    · intro hnone
      unfold try_start_delete_unused_files_operator
      rw [if_neg hg1, if_neg hg2]
      simp only [hvf, List.head?, hnone]
    · intro info hsome
      unfold try_start_delete_unused_files_operator
      rw [if_neg hg1, if_neg hg2]
      simp only [hvf, List.head?, hsome]
  · intro st vs st' acts t d c h hmem
    rcases hdvo_cases st vs st' acts h with ⟨-, -, rfl⟩ |
      ⟨-, graph, ordered, finishActs, -, -, hfin, -, rfl⟩
    · cases hmem
    · rcases List.mem_append.mp hmem with hmem2 | hmem3
      · exact bfa_mem st.tenant st.database_name ordered finishActs hfin
          t d c hmem2
      · rcases List.mem_singleton.mp hmem3 with heq
        cases heq

/-- A one-node version graph for collection 1. -/
def c10Graph : VersionGraph := ⟨[⟨1, 0⟩], []⟩

/-- A state one `DeleteVersions` completion away from the hard-delete phase,
with collection 1 eligible for hard deletion. -/
def c10State : OState :=
  { baseState with
    num_pending_tasks := 1
    graph := some c10Graph
    soft_deleted_collections_to_gc := [1]
    tenant := some "t"
    database_name := some "db" }

theorem finish_uses_first_version_file_tenant_witness :
    try_start_delete_unused_files_operator c3State = Except.ok
      ({ c3State with tenant := some "t", database_name := some "db" },
       [Action.DispatchDeleteFiles (filePathsToDelete c3State.file_ref_counts)
         "t"]) ∧
    (c10State.tenant = some "t" ∧ c10State.database_name = some "db") :=
  ⟨(finish_uses_first_version_file_tenant.1 c3State 1 c3File [(2, c3File)]
      rfl rfl rfl).2 ⟨"t", "dbid", "db"⟩ rfl,
   finish_uses_first_version_file_tenant.2 c10State [3]
     { c10State with num_versions_deleted := 1, num_pending_tasks := 0 }
     [Action.FinishCollectionDeletion "t" "db" 1,
      Action.Respond ⟨7, 0, 1⟩] "t" "db" 1 rfl (by decide)⟩

section EmptyFilePathsLemmas

lemma no_file_paths_infix (v : Version) (c : CollectionId) :
    List.IsInfix ("no file paths").data (emptyFilePathsMsg v c).data := by
  have hsplit :
      (" has no file paths, but has non-v0 ancestors. This should never happen.").data =
      (" has ").data ++ ("no file paths").data ++
        (", but has non-v0 ancestors. This should never happen.").data := rfl
  refine ⟨("Version " ++ toString v ++ " of collection " ++ toString c
      ++ " has ").data,
    (", but has non-v0 ancestors. This should never happen.").data, ?_⟩
  simp only [emptyFilePathsMsg, String.data_append, hsplit, List.append_assoc]
  rfl

lemma cef_reduce (st : OState) (output : ListFilesAtVersionOutput)
    (g : VersionGraph) (this_node root_index : Nat) (p : List Nat)
    (hempty : output.file_paths = [])
    (hg : st.graph = some g)
    (hnode : findNodeIndex g output.collection_id output.version = some this_node)
    (hroot : findRootIndex g = some root_index)
    (hpath : astarPath g root_index this_node = some p) :
    checkEmptyFilePaths st output =
      if (p.map (fun i => (g.nodes.getD i default).version)).all
          (fun v => v == 0) then Except.ok ()
      else Except.error (GCError.InvariantViolation
        (emptyFilePathsMsg output.version output.collection_id)) := by
  unfold checkEmptyFilePaths
  simp only [hempty, List.isEmpty_nil, hg, hnode, hroot, hpath]
  cases hall : ((p.map (fun i => (g.nodes.getD i default).version)).all
      (fun v => v == 0))
  · first
    | rfl
    | (rw [hall]; rfl)
  · first
    | rfl
    | (rw [hall]; rfl)

lemma hl_of_cef_error (st : OState) (output : ListFilesAtVersionOutput)
    (vtd : VersionsToDeleteOutput)
    (versions : List (Version × CollectionVersionAction))
    (act : CollectionVersionAction) (e : GCError)
    (hvtd : st.versions_to_delete_output = some vtd)
    (hcol : List.lookup output.collection_id vtd = some versions)
    (hver : List.lookup output.version versions = some act)
    (hcef : checkEmptyFilePaths st output = Except.error e) :
    handle_list_files_at_version_output st output = Except.error e := by
  unfold handle_list_files_at_version_output
  simp only [hvtd, hcol, hver, hcef]

lemma hl_ok_cef (st : OState) (output : ListFilesAtVersionOutput)
    (st' : OState) (acts : List Action) (vtd : VersionsToDeleteOutput)
    (versions : List (Version × CollectionVersionAction))
    (act : CollectionVersionAction)
    (hvtd : st.versions_to_delete_output = some vtd)
    (hcol : List.lookup output.collection_id vtd = some versions)
    (hver : List.lookup output.version versions = some act)
    (hok : handle_list_files_at_version_output st output = Except.ok (st', acts)) :
    checkEmptyFilePaths st output = Except.ok () := by
  unfold handle_list_files_at_version_output at hok
  rw [hvtd] at hok
  simp only [hcol, hver] at hok
  cases hc : checkEmptyFilePaths st output with
  | error e => rw [hc] at hok; cases hok
  | ok u => cases u; rfl

end EmptyFilePathsLemmas

/-- Claim C5: when a `ListFiles` completion for `(c, v)` carries an empty
file set and some node on the root-to-node path (that node included) has a
positive version, the run aborts with an `InvariantViolation` whose message
mentions "no file paths"; the empty set is accepted only when every version
on that path is 0. -/
theorem empty_file_paths_defense (st : OState)
    (output : ListFilesAtVersionOutput) (vtd : VersionsToDeleteOutput)
    (versions : List (Version × CollectionVersionAction))
    (act : CollectionVersionAction) (g : VersionGraph)
    (this_node root_index : Nat) (p : List Nat)
    (hvtd : st.versions_to_delete_output = some vtd)
    (hcol : List.lookup output.collection_id vtd = some versions)
    (hver : List.lookup output.version versions = some act)
    (hempty : output.file_paths = [])
    (hg : st.graph = some g)
    (hnode : findNodeIndex g output.collection_id output.version = some this_node)
    (hroot : findRootIndex g = some root_index)
    (hpath : astarPath g root_index this_node = some p)
    (hnn : ∀ i ∈ p, 0 ≤ (g.nodes.getD i default).version) :
    ((∃ i ∈ p, 0 < (g.nodes.getD i default).version) →
      ∃ msg, handle_list_files_at_version_output st output =
          Except.error (GCError.InvariantViolation msg) ∧
        List.IsInfix ("no file paths").data msg.data) ∧
    (∀ st' acts,
      handle_list_files_at_version_output st output = Except.ok (st', acts) →
      ∀ i ∈ p, (g.nodes.getD i default).version = 0) := by
  have hcef := cef_reduce st output g this_node root_index p hempty hg hnode
    hroot hpath
  constructor
  · rintro ⟨i, hi, hpos⟩
    have hall : ((p.map (fun i => (g.nodes.getD i default).version)).all
        (fun v => v == 0)) = false := by
      rw [List.all_eq_false]
      refine ⟨(g.nodes.getD i default).version, List.mem_map_of_mem _ hi, ?_⟩
      simp only [beq_iff_eq]
      exact fun hh => absurd (hh ▸ hpos) (lt_irrefl 0)
    rw [hall] at hcef
    simp only [Bool.false_eq_true, if_false] at hcef
    exact ⟨emptyFilePathsMsg output.version output.collection_id,
      hl_of_cef_error st output vtd versions act _ hvtd hcol hver hcef,
      no_file_paths_infix output.version output.collection_id⟩
  · intro st' acts hok i hi
    have hokc := hl_ok_cef st output st' acts vtd versions act hvtd hcol hver hok
    rw [hokc] at hcef
    cases hall : ((p.map (fun i => (g.nodes.getD i default).version)).all
        (fun v => v == 0)) with
    | false =>
      rw [hall] at hcef
      simp at hcef
    | true =>
      rw [List.all_eq_true] at hall
      have h2 := hall ((g.nodes.getD i default).version)
        (List.mem_map_of_mem _ hi)
      simpa using h2

/-- A two-node version graph: collection 1 at versions 0 and 1. -/
def c5Graph : VersionGraph := ⟨[⟨1, 0⟩, ⟨1, 1⟩], [(0, 1)]⟩

/-- A state classifying both versions of collection 1, with the graph set. -/
def c5State : OState :=
  { baseState with
    versions_to_delete_output := some
      [(1, [(1, CollectionVersionAction.Delete), (0, CollectionVersionAction.Keep)])]
    graph := some c5Graph }

theorem empty_file_paths_defense_witness :
    (∀ i ∈ [0, 1], 0 ≤ (c5Graph.nodes.getD i default).version) ∧
    (((∃ i ∈ [0, 1], 0 < (c5Graph.nodes.getD i default).version) →
      ∃ msg, handle_list_files_at_version_output c5State ⟨1, 1, []⟩ =
          Except.error (GCError.InvariantViolation msg) ∧
        List.IsInfix ("no file paths").data msg.data) ∧
    (∀ st' acts,
      handle_list_files_at_version_output c5State ⟨1, 1, []⟩ =
        Except.ok (st', acts) →
      ∀ i ∈ [0, 1], (c5Graph.nodes.getD i default).version = 0)) :=
  ⟨by decide, empty_file_paths_defense c5State ⟨1, 1, []⟩
    [(1, [(1, CollectionVersionAction.Delete), (0, CollectionVersionAction.Keep)])]
    [(1, CollectionVersionAction.Delete), (0, CollectionVersionAction.Keep)]
    CollectionVersionAction.Delete c5Graph 1 0 [0, 1]
    rfl (by decide) (by decide) rfl rfl (by decide) (by decide) (by decide)
    (by decide)⟩

section ReachabilityLemmas

/-- The edge relation of a dependency-graph edge list. -/
def edgeRel (edges : List (CollectionId × CollectionId))
    (u v : CollectionId) : Prop := (u, v) ∈ edges

lemma foldl_reach_grows (edges : List (CollectionId × CollectionId)) :
    ∀ (acc : List CollectionId), acc ⊆ edges.foldl (fun acc e =>
      if e.1 ∈ acc ∧ e.2 ∉ acc then e.2 :: acc else acc) acc := by
  induction edges with
  | nil => intro acc; exact fun x h => h
  | cons e rest ih =>
    intro acc
    simp only [List.foldl_cons]
    intro x hx
    by_cases hcond : e.1 ∈ acc ∧ e.2 ∉ acc
    · rw [if_pos hcond]
      exact ih (e.2 :: acc) (List.mem_cons_of_mem _ hx)
    · rw [if_neg hcond]
      exact ih acc hx

lemma subset_expandReach (edges : List (CollectionId × CollectionId))
    (s : List CollectionId) : s ⊆ expandReach edges s :=
  foldl_reach_grows edges s

lemma subset_reachableAux (edges : List (CollectionId × CollectionId)) :
    ∀ (fuel : Nat) (s : List CollectionId), s ⊆ reachableAux edges fuel s := by
  intro fuel
  induction fuel with
  | zero => intro s; exact fun x h => h
  | succ f ih =>
    intro s
    exact fun x hx => ih (expandReach edges s) (subset_expandReach edges s hx)

lemma expandReach_decomp (edges : List (CollectionId × CollectionId)) :
    ∀ (acc : List CollectionId), ∃ A, expandReach edges acc = A ++ acc ∧
      A.Nodup ∧ (∀ x ∈ A, x ∈ edges.map Prod.snd) ∧ (∀ x ∈ A, x ∉ acc) := by
  unfold expandReach
  induction edges with
  | nil => intro acc; exact ⟨[], rfl, List.nodup_nil, by simp, by simp⟩
  | cons e rest ih =>
    intro acc
    simp only [List.foldl_cons]
    by_cases hcond : e.1 ∈ acc ∧ e.2 ∉ acc
    · rw [if_pos hcond]
      obtain ⟨A, hA, hnd, hsub, hnot⟩ := ih (e.2 :: acc)
      refine ⟨A ++ [e.2], by rw [hA]; simp, ?_, ?_, ?_⟩
      · rw [List.nodup_append]
        exact ⟨hnd, List.nodup_singleton _, fun x hx hx2 => by
          rcases List.mem_singleton.mp hx2 with rfl
          exact hnot _ hx (List.mem_cons_self _ _)⟩
      · intro x hx
        rcases List.mem_append.mp hx with hx1 | hx2
        · exact List.mem_cons_of_mem _ (hsub x hx1)
        · rcases List.mem_singleton.mp hx2 with rfl
          exact List.mem_cons_self _ _
      · intro x hx hxa
        rcases List.mem_append.mp hx with hx1 | hx2
        · exact hnot x hx1 (List.mem_cons_of_mem _ hxa)
        · rcases List.mem_singleton.mp hx2 with rfl
          exact hcond.2 hxa
    · rw [if_neg hcond]
      obtain ⟨A, hA, hnd, hsub, hnot⟩ := ih acc
      exact ⟨A, hA, hnd, fun x hx => List.mem_cons_of_mem _ (hsub x hx), hnot⟩

lemma expandReach_eq_or_longer (edges : List (CollectionId × CollectionId))
    (s : List CollectionId) :
    expandReach edges s = s ∨ s.length < (expandReach edges s).length := by
  obtain ⟨A, hA, -, -, -⟩ := expandReach_decomp edges s
  cases A with
  | nil => exact Or.inl (by simpa using hA)
  | cons a arest =>
    right
    rw [hA]
    simp
    omega

lemma reachableAux_of_fix (edges : List (CollectionId × CollectionId)) :
    ∀ (fuel : Nat) (s : List CollectionId), expandReach edges s = s →
      reachableAux edges fuel s = s := by
  intro fuel
  induction fuel with
  | zero => intro s h; rfl
  | succ f ih =>
    intro s h
    unfold reachableAux
    rw [h]
    exact ih s h

lemma reachableAux_decomp (edges : List (CollectionId × CollectionId)) :
    ∀ (fuel : Nat) (s : List CollectionId), ∃ A,
      reachableAux edges fuel s = A ++ s ∧ A.Nodup ∧
      (∀ x ∈ A, x ∈ edges.map Prod.snd) ∧ (∀ x ∈ A, x ∉ s) := by
  intro fuel
  induction fuel with
  | zero => intro s; exact ⟨[], rfl, List.nodup_nil, by simp, by simp⟩
  | succ f ih =>
    intro s
    obtain ⟨B, hB, hndB, hsubB, hnotB⟩ := expandReach_decomp edges s
    obtain ⟨A, hA, hndA, hsubA, hnotA⟩ := ih (expandReach edges s)
    refine ⟨A ++ B, ?_, ?_, ?_, ?_⟩
    · unfold reachableAux
      rw [hA, hB, List.append_assoc]
    · rw [List.nodup_append]
      refine ⟨hndA, hndB, fun x hx hx2 => ?_⟩
      exact hnotA x hx (hB ▸ List.mem_append_left s (hx2))
    · intro x hx
      rcases List.mem_append.mp hx with hx1 | hx2
      · exact hsubA x hx1
      · exact hsubB x hx2
    · intro x hx hxs
      rcases List.mem_append.mp hx with hx1 | hx2
      · exact hnotA x hx1 (subset_expandReach edges s hxs)
      · exact hnotB x hx2 hxs

lemma reachableAux_fix_or_grow (edges : List (CollectionId × CollectionId)) :
    ∀ (fuel : Nat) (s : List CollectionId),
      expandReach edges (reachableAux edges fuel s) = reachableAux edges fuel s ∨
      s.length + fuel ≤ (reachableAux edges fuel s).length := by
  intro fuel
  induction fuel with
  | zero => intro s; exact Or.inr (by simp [reachableAux])
  | succ f ih =>
    intro s
    rcases expandReach_eq_or_longer edges s with hfix | hgrow
    · left
      unfold reachableAux
      rw [hfix, reachableAux_of_fix edges f s hfix]
      exact hfix
    · rcases ih (expandReach edges s) with hfix2 | hlen
      · exact Or.inl hfix2
      · right
        unfold reachableAux
        omega

lemma expandReach_fix_of_dijkstra (edges : List (CollectionId × CollectionId))
    (c : CollectionId) :
    expandReach edges (dijkstraReachable edges c) = dijkstraReachable edges c := by
  rcases reachableAux_fix_or_grow edges (edges.length + 1) [c] with hfix | hlen
  · exact hfix
  · exfalso
    obtain ⟨A, hA, hnd, hsub, -⟩ :=
      reachableAux_decomp edges (edges.length + 1) [c]
    have hle : A.length ≤ (edges.map Prod.snd).length :=
      (List.Nodup.subperm hnd (fun x hx => hsub x hx)).length_le
    rw [hA] at hlen
    simp only [List.length_append, List.length_singleton,
      List.length_map] at hlen hle
    omega

lemma expandReach_closed (edges : List (CollectionId × CollectionId)) :
    ∀ (L : List (CollectionId × CollectionId)) (acc : List CollectionId)
      (e : CollectionId × CollectionId), e ∈ L → e.1 ∈ acc →
      e.2 ∈ L.foldl (fun acc e =>
        if e.1 ∈ acc ∧ e.2 ∉ acc then e.2 :: acc else acc) acc := by
  intro L
  induction L with
  | nil =>
    intro acc e hmem
    cases hmem
  | cons e0 rest ih =>
    intro acc e hmem h1
    simp only [List.foldl_cons]
    rcases List.mem_cons.mp hmem with rfl | hmem2
    · by_cases hcond : e.1 ∈ acc ∧ e.2 ∉ acc
      · rw [if_pos hcond]
        exact foldl_reach_grows rest (e.2 :: acc) (List.mem_cons_self _ _)
      · rw [if_neg hcond]
        have h2 : e.2 ∈ acc := by
          by_contra h3
          exact hcond ⟨h1, h3⟩
        exact foldl_reach_grows rest acc h2
    · by_cases hcond : e0.1 ∈ acc ∧ e0.2 ∉ acc
      · rw [if_pos hcond]
        exact ih (e0.2 :: acc) e hmem2 (List.mem_cons_of_mem _ h1)
      · rw [if_neg hcond]
        exact ih acc e hmem2 h1

lemma reach_sound (edges : List (CollectionId × CollectionId)) :
    ∀ (fuel : Nat) (s : List CollectionId) (x : CollectionId),
      x ∈ reachableAux edges fuel s →
      ∃ y ∈ s, Relation.ReflTransGen (edgeRel edges) y x := by
  have hstep : ∀ (L : List (CollectionId × CollectionId))
      (s acc : List CollectionId),
      (∀ z ∈ acc, ∃ y ∈ s, Relation.ReflTransGen (edgeRel edges) y z) →
      (∀ e ∈ L, e ∈ edges) →
      ∀ x ∈ L.foldl (fun acc e =>
        if e.1 ∈ acc ∧ e.2 ∉ acc then e.2 :: acc else acc) acc,
      ∃ y ∈ s, Relation.ReflTransGen (edgeRel edges) y x := by
    intro L
    induction L with
    | nil => intro s acc hacc hL x hx; exact hacc x hx
    | cons e0 rest ih =>
      intro s acc hacc hL x hx
      simp only [List.foldl_cons] at hx
      by_cases hcond : e0.1 ∈ acc ∧ e0.2 ∉ acc
      · rw [if_pos hcond] at hx
        refine ih s (e0.2 :: acc) ?_ (fun e he => hL e (List.mem_cons_of_mem _ he)) x hx
        intro z hz
        rcases List.mem_cons.mp hz with rfl | hz2
        · obtain ⟨y, hy, hr⟩ := hacc e0.1 hcond.1
          exact ⟨y, hy, hr.tail (hL e0 (List.mem_cons_self _ _))⟩
        · exact hacc z hz2
      · rw [if_neg hcond] at hx
        exact ih s acc hacc (fun e he => hL e (List.mem_cons_of_mem _ he)) x hx
  intro fuel
  induction fuel with
  | zero =>
    intro s x hx
    exact ⟨x, hx, Relation.ReflTransGen.refl⟩
  | succ f ih =>
    intro s x hx
    unfold reachableAux at hx
    obtain ⟨y, hy, hr⟩ := ih (expandReach edges s) x hx
    obtain ⟨z, hz, hr2⟩ := hstep edges s s (fun z hz =>
      ⟨z, hz, Relation.ReflTransGen.refl⟩) (fun e he => he) y hy
    exact ⟨z, hz, hr2.trans hr⟩

lemma mem_dijkstraReachable (edges : List (CollectionId × CollectionId))
    (c x : CollectionId) :
    x ∈ dijkstraReachable edges c ↔
      Relation.ReflTransGen (edgeRel edges) c x := by
  constructor
  · intro hx
    obtain ⟨y, hy, hr⟩ := reach_sound edges (edges.length + 1) [c] x hx
    rcases List.mem_singleton.mp hy with rfl
    exact hr
  · intro hr
    induction hr with
    | refl =>
      exact subset_reachableAux edges (edges.length + 1) [c]
        (List.mem_singleton.mpr rfl)
    | tail hr2 hlast ih =>
      rename_i b d
      have hfix := expandReach_fix_of_dijkstra edges c
      have := expandReach_closed edges edges (dijkstraReachable edges c)
        (b, d) hlast ih
      unfold expandReach at hfix
      rw [hfix] at this
      exact this

end ReachabilityLemmas

section ToposortLemmas

lemma pickSource_mem (remaining : List CollectionId)
    (edges : List (CollectionId × CollectionId)) (n : CollectionId)
    (h : pickSource remaining edges = some n) : n ∈ remaining :=
  List.mem_of_find?_eq_some h

lemma pickSource_no_incoming (remaining : List CollectionId)
    (edges : List (CollectionId × CollectionId)) (n : CollectionId)
    (h : pickSource remaining edges = some n) :
    ∀ m ∈ remaining, (m, n) ∉ edges := by
  have hp := List.find?_some h
  simp only [Bool.not_eq_true', List.any_eq_false, decide_eq_true_eq] at hp
  exact hp

lemma topoAux_perm (edges : List (CollectionId × CollectionId)) :
    ∀ (fuel : Nat) (r l : List CollectionId),
    topoAux edges fuel r = some l → l.Perm r := by
  intro fuel
  induction fuel with
  | zero =>
    intro r l h
    cases r with
    | nil => cases h; exact List.Perm.refl _
    | cons a rest => cases h
  | succ f ih =>
    intro r l h
    cases r with
    | nil => cases h; exact List.Perm.refl _
    | cons a rest =>
      unfold topoAux at h
      cases hp : pickSource (a :: rest) edges
      · simp only [hp] at h
        cases h
      · rename_i n
        simp only [hp] at h
        cases hrec : topoAux edges f ((a :: rest).erase n)
        · simp only [hrec, Option.map_none'] at h
          cases h
        · rename_i l2
          simp only [hrec, Option.map_some', Option.some.injEq] at h
          subst h
          exact ((ih _ l2 hrec).cons n).trans
            (List.perm_cons_erase (pickSource_mem _ edges n hp)).symm

lemma topoAux_order (edges : List (CollectionId × CollectionId)) :
    ∀ (fuel : Nat) (r l : List CollectionId) (u v : CollectionId),
    topoAux edges fuel r = some l → (u, v) ∈ edges → u ∈ r → v ∈ r →
    l.indexOf u < l.indexOf v := by
  intro fuel
  induction fuel with
  | zero =>
    intro r l u v h he hu hv
    cases r with
    | nil => cases hu
    | cons a rest => cases h
  | succ f ih =>
    intro r l u v h he hu hv
    cases r with
    | nil => cases hu
    | cons a rest =>
      unfold topoAux at h
      cases hp : pickSource (a :: rest) edges
      · simp only [hp] at h
        cases h
      · rename_i n
        simp only [hp] at h
        cases hrec : topoAux edges f ((a :: rest).erase n)
        · simp only [hrec, Option.map_none'] at h
          cases h
        · rename_i l2
          simp only [hrec, Option.map_some', Option.some.injEq] at h
          subst h
          have hvn : v ≠ n := fun hh =>
            pickSource_no_incoming _ edges n hp u hu (hh ▸ he)
          by_cases hun : u = n
          · subst hun
            rw [List.indexOf_cons_self]
            rw [List.indexOf_cons_ne l2 (fun hh : u = v => hvn hh.symm)]
            exact Nat.succ_pos _
          · have hu2 : u ∈ (a :: rest).erase n :=
              (List.mem_erase_of_ne hun).mpr hu
            have hv2 : v ∈ (a :: rest).erase n :=
              (List.mem_erase_of_ne hvn).mpr hv
            rw [List.indexOf_cons_ne l2 (fun hh : n = u => hun hh.symm),
              List.indexOf_cons_ne l2 (fun hh : n = v => hvn hh.symm)]
            exact Nat.succ_lt_succ (ih _ l2 u v hrec he hu2 hv2)

lemma toposort_some_perm (nodes : List CollectionId)
    (edges : List (CollectionId × CollectionId)) (l : List CollectionId)
    (h : toposort nodes edges = some l) : l.Perm nodes :=
  topoAux_perm edges nodes.length nodes l h

lemma toposort_some_order (nodes : List CollectionId)
    (edges : List (CollectionId × CollectionId)) (l : List CollectionId)
    (u v : CollectionId) (h : toposort nodes edges = some l)
    (he : (u, v) ∈ edges) (hu : u ∈ nodes) (hv : v ∈ nodes) :
    l.indexOf u < l.indexOf v :=
  topoAux_order edges nodes.length nodes l u v h he hu hv

lemma toposort_chain_order (nodes : List CollectionId)
    (edges : List (CollectionId × CollectionId)) (l : List CollectionId)
    (hE : ∀ e ∈ edges, e.1 ∈ nodes ∧ e.2 ∈ nodes)
    (h : toposort nodes edges = some l) (u v : CollectionId)
    (hchain : Relation.TransGen (edgeRel edges) u v) :
    l.indexOf u < l.indexOf v := by
  induction hchain with
  | single h1 =>
    exact toposort_some_order nodes edges l _ _ h h1 (hE _ h1).1 (hE _ h1).2
  | tail hprev hlast ih =>
    exact lt_trans ih
      (toposort_some_order nodes edges l _ _ h hlast (hE _ hlast).1
        (hE _ hlast).2)

lemma toposort_cycle_none (nodes : List CollectionId)
    (edges : List (CollectionId × CollectionId))
    (hE : ∀ e ∈ edges, e.1 ∈ nodes ∧ e.2 ∈ nodes) (c : CollectionId)
    (hcyc : Relation.TransGen (edgeRel edges) c c) :
    toposort nodes edges = none := by
  cases ht : toposort nodes edges with
  | none => rfl
  | some l =>
    exact absurd (toposort_chain_order nodes edges l hE ht c c hcyc)
      (lt_irrefl _)

lemma sublist_pair_of_indexOf_lt (l : List CollectionId) (x y : CollectionId)
    (hx : x ∈ l) (hy : y ∈ l) (h : l.indexOf x < l.indexOf y) :
    [x, y].Sublist l := by
  induction l with
  | nil => cases hx
  | cons a rest ih =>
    by_cases hax : a = x
    · subst hax
      have hyx : y ≠ a := by
        intro hh
        subst hh
        rw [List.indexOf_cons_self] at h
        cases h
      have hyr : y ∈ rest := by
        rcases List.mem_cons.mp hy with hh | hh
        · exact absurd hh hyx
        · exact hh
      exact List.Sublist.cons₂ a (List.singleton_sublist.mpr hyr)
    · have hay : a ≠ y := by
        intro hh
        subst hh
        rw [List.indexOf_cons_self] at h
        cases h
      have hxr : x ∈ rest := by
        rcases List.mem_cons.mp hx with hh | hh
        · exact absurd hh.symm hax
        · exact hh
      have hyr : y ∈ rest := by
        rcases List.mem_cons.mp hy with hh | hh
        · exact absurd hh.symm hay
        · exact hh
      rw [List.indexOf_cons_ne rest (fun hh : a = x => hax hh),
        List.indexOf_cons_ne rest (fun hh : a = y => hay hh)] at h
      exact List.Sublist.cons a (ih hxr hyr (Nat.lt_of_succ_lt_succ h))

end ToposortLemmas

section DepGraphLemmas

lemma depGraph_nodes_nodup (g : VersionGraph) :
    (version_graph_to_collection_dependency_graph g).nodes.Nodup :=
  List.nodup_dedup _

lemma depGraph_edges_mem (g : VersionGraph)
    (hE : ∀ e ∈ g.edges, e.1 < g.nodes.length ∧ e.2 < g.nodes.length) :
    ∀ e ∈ (version_graph_to_collection_dependency_graph g).edges,
      e.1 ∈ (version_graph_to_collection_dependency_graph g).nodes ∧
      e.2 ∈ (version_graph_to_collection_dependency_graph g).nodes := by
  intro e he
  simp only [version_graph_to_collection_dependency_graph,
    List.mem_dedup] at he ⊢
  obtain ⟨ge, hge, heq⟩ := List.mem_filterMap.mp he
  by_cases hab : (g.nodes.getD ge.1 default).collection_id ≠
      (g.nodes.getD ge.2 default).collection_id
  · rw [if_pos hab] at heq
    cases heq
    constructor
    · rw [List.getD_eq_getElem g.nodes default (hE ge hge).1]
      exact List.mem_map_of_mem _ (List.getElem_mem _)
    · rw [List.getD_eq_getElem g.nodes default (hE ge hge).2]
      exact List.mem_map_of_mem _ (List.getElem_mem _)
  · rw [if_neg hab] at heq
    cases heq

end DepGraphLemmas

/-- Claim C2: in the hard-delete phase, a collection is finalized iff it is
in the eligible soft-deleted set and every collection reachable from it
(inclusive) in the collection dependency graph is also in that set; the
`finish_collection_deletion` calls are issued sequentially in reverse
topological order, so a finalized descendant precedes its ancestor in the
call sequence; and a cyclic dependency graph aborts with
`InvariantViolation`. -/
theorem hard_delete_reachability_and_order (graph : VersionGraph)
    (eligible : List CollectionId)
    (hE : ∀ e ∈ graph.edges, e.1 < graph.nodes.length ∧
      e.2 < graph.nodes.length)
    (hEl : ∀ c ∈ eligible,
      c ∈ (version_graph_to_collection_dependency_graph graph).nodes) :
    (∀ l, computeHardDeleteList graph eligible = Except.ok l →
      (∀ c, c ∈ l ↔ c ∈ eligible ∧
        (∀ d, Relation.ReflTransGen
          (edgeRel (version_graph_to_collection_dependency_graph graph).edges)
          c d → d ∈ eligible)) ∧
      (∀ c d, c ∈ l → d ∈ l → d ≠ c →
        Relation.ReflTransGen
          (edgeRel (version_graph_to_collection_dependency_graph graph).edges)
          c d →
        [d, c].Sublist l)) ∧
    ((∃ c, Relation.TransGen
        (edgeRel (version_graph_to_collection_dependency_graph graph).edges)
        c c) →
      computeHardDeleteList graph eligible = Except.error
        (GCError.InvariantViolation
          ("Failed to topologically sort collection dependency graph"))) ∧
    (∀ st vs st' acts t d,
      st.graph = some graph → st.soft_deleted_collections_to_gc = eligible →
      st.num_pending_tasks = 1 → st.tenant = some t →
      st.database_name = some d →
      handle_delete_versions_output st vs = Except.ok (st', acts) →
      ∃ l, computeHardDeleteList graph eligible = Except.ok l ∧
        acts = l.map (Action.FinishCollectionDeletion t d) ++
          [Action.Respond ⟨st.collection_id, st.num_files_deleted,
            st.num_versions_deleted + vs.length⟩]) := by
  have hDepE := depGraph_edges_mem graph hE
  refine ⟨?_, ?_, ?_⟩
  · intro l hok
    unfold computeHardDeleteList at hok
    cases ht : toposort (version_graph_to_collection_dependency_graph graph).nodes
        (version_graph_to_collection_dependency_graph graph).edges <;>
      simp only [ht] at hok
    · cases hok
    · rename_i topo
      simp only [Except.ok.injEq] at hok
      subst hok
      have hperm := toposort_some_perm _ _ topo ht
      constructor
      · intro c
        rw [List.mem_filter]
        constructor
        · rintro ⟨hmem, hpred⟩
          simp only [hardDeleteEligible, Bool.and_eq_true, decide_eq_true_eq,
            List.all_eq_true] at hpred
          refine ⟨hpred.1, fun dd hdd => ?_⟩
          exact hpred.2 dd ((mem_dijkstraReachable _ c dd).mpr hdd)
        · rintro ⟨helig, hreach⟩
          constructor
          · rw [List.mem_reverse]
            exact hperm.mem_iff.mpr (hEl c helig)
          · simp only [hardDeleteEligible, Bool.and_eq_true, decide_eq_true_eq,
              List.all_eq_true]
            exact ⟨helig, fun dd hdd =>
              hreach dd ((mem_dijkstraReachable _ c dd).mp hdd)⟩
      · intro c dd hc hd hne hreach
        have hcm := List.mem_filter.mp hc
        have hdm := List.mem_filter.mp hd
        have htg : Relation.TransGen
            (edgeRel (version_graph_to_collection_dependency_graph graph).edges)
            c dd := by
          rcases (Relation.reflTransGen_iff_eq_or_transGen.mp hreach) with
            heq | htg2
          · exact absurd heq hne
          · exact htg2
        have hidx := toposort_chain_order _ _ topo hDepE ht c dd htg
        have hcm2 : c ∈ topo := List.mem_reverse.mp hcm.1
        have hdm2 : dd ∈ topo := List.mem_reverse.mp hdm.1
        have hsub : [c, dd].Sublist topo :=
          sublist_pair_of_indexOf_lt topo c dd hcm2 hdm2 hidx
        have hsub2 : [dd, c].Sublist topo.reverse := by
          have := hsub.reverse
          simpa using this
        have hsub3 := hsub2.filter
          (hardDeleteEligible (version_graph_to_collection_dependency_graph
            graph) eligible)
        rwa [List.filter_cons_of_pos, List.filter_cons_of_pos,
          List.filter_nil] at hsub3
        · exact hcm.2
        · exact hdm.2
  · rintro ⟨c, hcyc⟩
    unfold computeHardDeleteList
    simp only [toposort_cycle_none _ _ hDepE c hcyc]
  · intro st vs st' acts t dbn hg hsoft hpend ht hd hok
    rcases hdvo_cases st vs st' acts hok with ⟨hnz, -, -⟩ |
      ⟨-, graph2, ordered, finishActs, hg2, hord, hfin, -, rfl⟩
    · rw [hpend] at hnz
      exact absurd rfl hnz
    · rw [hg] at hg2
      cases hg2
      rw [hsoft] at hord
      rw [ht, hd, bfa_ok t dbn ordered] at hfin
      cases hfin
      exact ⟨ordered, hord, rfl⟩

/-- A fork tree: root collection 1 (versions 0 and 1) forking into
collection 2 at version 1. -/
def c2Graph : VersionGraph := ⟨[⟨1, 0⟩, ⟨1, 1⟩, ⟨2, 0⟩], [(0, 1), (1, 2)]⟩

/-- Both collections of `c2Graph` eligible for hard deletion. -/
def c2Eligible : List CollectionId := [1, 2]

theorem hard_delete_reachability_and_order_witness :
    (∀ e ∈ c2Graph.edges, e.1 < c2Graph.nodes.length ∧
      e.2 < c2Graph.nodes.length) ∧
    ((∀ l, computeHardDeleteList c2Graph c2Eligible = Except.ok l →
      (∀ c, c ∈ l ↔ c ∈ c2Eligible ∧
        (∀ d, Relation.ReflTransGen
          (edgeRel (version_graph_to_collection_dependency_graph c2Graph).edges)
          c d → d ∈ c2Eligible)) ∧
      (∀ c d, c ∈ l → d ∈ l → d ≠ c →
        Relation.ReflTransGen
          (edgeRel (version_graph_to_collection_dependency_graph c2Graph).edges)
          c d →
        [d, c].Sublist l)) ∧
    ((∃ c, Relation.TransGen
        (edgeRel (version_graph_to_collection_dependency_graph c2Graph).edges)
        c c) →
      computeHardDeleteList c2Graph c2Eligible = Except.error
        (GCError.InvariantViolation
          ("Failed to topologically sort collection dependency graph"))) ∧
    (∀ st vs st' acts t d,
      st.graph = some c2Graph →
      st.soft_deleted_collections_to_gc = c2Eligible →
      st.num_pending_tasks = 1 → st.tenant = some t →
      st.database_name = some d →
      handle_delete_versions_output st vs = Except.ok (st', acts) →
      ∃ l, computeHardDeleteList c2Graph c2Eligible = Except.ok l ∧
        acts = l.map (Action.FinishCollectionDeletion t d) ++
          [Action.Respond ⟨st.collection_id, st.num_files_deleted,
            st.num_versions_deleted + vs.length⟩])) :=
  ⟨by decide, hard_delete_reachability_and_order c2Graph c2Eligible
    (by decide) (by decide)⟩

section GatingLemmas

/-- Recognises a `DeleteUnusedFiles` dispatch. -/
def isDeleteFilesDispatch (a : Action) : Bool :=
  match a with
  | Action.DispatchDeleteFiles _ _ => true
  | _ => false

/-- Recognises a `DeleteVersions` dispatch. -/
def isDeleteVersionsDispatch (a : Action) : Bool :=
  match a with
  | Action.DispatchDeleteVersions _ _ _ _ => true
  | _ => false

/-- The collections of the `MarkVersions` completions of an event list. -/
def marksOf (evts : List Event) : List CollectionId :=
  evts.filterMap (fun e => match e with
    | Event.markVersions c => some c
    | _ => none)

/-- The pairs of the `ListFiles` completions of an event list. -/
def listsOf (evts : List Event) : List (CollectionId × Version) :=
  evts.filterMap (fun e => match e with
    | Event.listFiles o => some (o.collection_id, o.version)
    | _ => none)

/-- A completion of the mark/list fan-out stage. -/
def isMarkOrList (e : Event) : Bool :=
  match e with
  | Event.markVersions _ => true
  | Event.listFiles _ => true
  | _ => false

/-- One `MarkVersions` completion per classified collection. -/
def markEventsOf (V : VersionsToDeleteOutput) : List Event :=
  V.map (fun cv => Event.markVersions cv.1)

/-- One `ListFiles` completion per classified pair, with `paths` giving the
file set each returns. -/
def listEventsOf (V : VersionsToDeleteOutput)
    (paths : CollectionId × Version → List Path) : List Event :=
  V.flatMap (fun cv => cv.2.map (fun pa =>
    Event.listFiles ⟨cv.1, pa.1, paths (cv.1, pa.1)⟩))

lemma tsl_spec (s s' : OState) (a : List Action)
    (h : try_start_delete_unused_logs_operator s = Except.ok (s', a)) :
    s' = s ∧ a.countP isDeleteFilesDispatch = 0 := by
  unfold try_start_delete_unused_logs_operator at h
  by_cases h1 : s.pending_mark_versions_at_sysdb_tasks ≠ []
  · rw [if_pos h1] at h
    simp only [Except.ok.injEq, Prod.mk.injEq] at h
    obtain ⟨rfl, rfl⟩ := h
    exact ⟨rfl, rfl⟩
  · rw [if_neg h1] at h
    split at h
    · cases h
    · rename_i V hV
      split at h
      · cases h
      · rename_i gcm hgcm
        simp only [Except.ok.injEq, Prod.mk.injEq] at h
        obtain ⟨rfl, rfl⟩ := h
        exact ⟨rfl, rfl⟩

lemma tsf_count (s s' : OState) (a : List Action)
    (h : try_start_delete_unused_files_operator s = Except.ok (s', a)) :
    s'.pending_mark_versions_at_sysdb_tasks =
      s.pending_mark_versions_at_sysdb_tasks ∧
    s'.pending_list_files_at_version_tasks =
      s.pending_list_files_at_version_tasks ∧
    a.countP isDeleteFilesDispatch =
      (if s.pending_list_files_at_version_tasks = [] ∧
          s.pending_mark_versions_at_sysdb_tasks = [] then 1 else 0) := by
  rcases tsf_spec s s' a h with ⟨rfl, rfl, hne⟩ |
    ⟨h1, h2, cid, vf, info, rest, -, -, rfl, rfl⟩
  · refine ⟨rfl, rfl, ?_⟩
    rw [if_neg]
    · rfl
    · rintro ⟨hc1, hc2⟩
      rcases hne with hx | hx
      · exact hx hc1
      · exact hx hc2
  · refine ⟨rfl, rfl, ?_⟩
    rw [if_pos ⟨h1, h2⟩]
    rfl

lemma mark_step_spec (st : OState) (c : CollectionId) (st' : OState)
    (acts : List Action)
    (h : handle_mark_versions_at_sysdb_output st c = Except.ok (st', acts)) :
    st'.pending_mark_versions_at_sysdb_tasks =
      st.pending_mark_versions_at_sysdb_tasks.erase c ∧
    st'.pending_list_files_at_version_tasks =
      st.pending_list_files_at_version_tasks ∧
    acts.countP isDeleteFilesDispatch =
      (if st.pending_list_files_at_version_tasks = [] ∧
          st.pending_mark_versions_at_sysdb_tasks.erase c = []
       then 1 else 0) := by
  unfold handle_mark_versions_at_sysdb_output at h
  cases htl : try_start_delete_unused_logs_operator
      { st with pending_mark_versions_at_sysdb_tasks :=
          st.pending_mark_versions_at_sysdb_tasks.erase c } with
  | error e =>
    simp only [htl] at h
    cases h
  | ok pair1 =>
    obtain ⟨s1, a1⟩ := pair1
    simp only [htl] at h
    cases htf : try_start_delete_unused_files_operator s1 with
    | error e =>
      simp only [htf] at h
      cases h
    | ok pair2 =>
      obtain ⟨s2, a2⟩ := pair2
      simp only [htf] at h
      simp only [Except.ok.injEq, Prod.mk.injEq] at h
      obtain ⟨rfl, rfl⟩ := h
      obtain ⟨rfl, hc1⟩ := tsl_spec _ _ _ htl
      obtain ⟨hp1, hp2, hcnt⟩ := tsf_count _ _ _ htf
      refine ⟨by rw [hp1], by rw [hp2], ?_⟩
      rw [List.countP_append, hc1, hcnt]
      simp

lemma list_step_spec (st : OState) (o : ListFilesAtVersionOutput)
    (st' : OState) (acts : List Action)
    (h : handle_list_files_at_version_output st o = Except.ok (st', acts)) :
    st'.pending_mark_versions_at_sysdb_tasks =
      st.pending_mark_versions_at_sysdb_tasks ∧
    st'.pending_list_files_at_version_tasks =
      st.pending_list_files_at_version_tasks.erase
        (o.collection_id, o.version) ∧
    acts.countP isDeleteFilesDispatch =
      (if st.pending_list_files_at_version_tasks.erase
            (o.collection_id, o.version) = [] ∧
          st.pending_mark_versions_at_sysdb_tasks = []
       then 1 else 0) := by
  unfold handle_list_files_at_version_output at h
  split at h
  · cases h
  · rename_i vtd hvtd
    split at h
    · cases h
    · rename_i versions hcol
      split at h
      · cases h
      · rename_i act hver
        cases hc : checkEmptyFilePaths st o with
        | error e => rw [hc] at h; cases h
        | ok u =>
          rw [hc] at h
          simp only at h
          obtain ⟨hp1, hp2, hcnt⟩ := tsf_count _ _ _ h
          exact ⟨hp1, hp2, hcnt⟩

lemma perm_erase_lawful {α : Type} [BEq α] [LawfulBEq α] {l r : List α}
    (x : α) (h : l.Perm r) : (l.erase x).Perm (r.erase x) := by
  induction h with
  | nil => exact List.Perm.refl _
  | cons a h ih =>
    rw [List.erase_cons, List.erase_cons]
    by_cases hax : (a == x) = true
    · rw [if_pos hax, if_pos hax]
      assumption
  
    · rw [if_neg hax, if_neg hax]
      exact ih.cons a
  | swap a b l =>
    cases hax : a == x <;> cases hbx : b == x
    · simp only [List.erase_cons, hax, hbx, Bool.false_eq_true, if_false]
      exact List.Perm.swap a b (l.erase x)
    · simp only [List.erase_cons, hax, hbx]
      simp
    · simp only [List.erase_cons, hax, hbx]
      simp
    · simp only [List.erase_cons, hax, hbx]
      simp only [if_true]
      have hab : a = b := (eq_of_beq hax).trans (eq_of_beq hbx).symm
      rw [hab]
  | trans h1 h2 ih1 ih2 => exact ih1.trans ih2

lemma run_count :
    ∀ (evts : List Event) (st st' : OState) (acts : List Action),
    (∀ e ∈ evts, isMarkOrList e = true) →
    st.pending_mark_versions_at_sysdb_tasks.Perm (marksOf evts) →
    st.pending_list_files_at_version_tasks.Perm (listsOf evts) →
    evts ≠ [] →
    runEvents st evts = Except.ok (st', acts) →
    acts.countP isDeleteFilesDispatch = 1 := by
  intro evts
  induction evts with
  | nil =>
    intro st st' acts hshape hm hl hne
    exact absurd rfl hne
  | cons e rest ih =>
    intro st st' acts hshape hm hl hne h
    unfold runEvents at h
    cases hstep : step st e with
    | error err => rw [hstep] at h; cases h
    | ok pair1 =>
      obtain ⟨st1, a1⟩ := pair1
      rw [hstep] at h
      simp only at h
      cases hrun : runEvents st1 rest with
      | error err => rw [hrun] at h; cases h
      | ok pair2 =>
        obtain ⟨st2, a2⟩ := pair2
        rw [hrun] at h
        simp only [Except.ok.injEq, Prod.mk.injEq] at h
        obtain ⟨rfl, rfl⟩ := h
        rw [List.countP_append]
        have hsh := hshape e (List.mem_cons_self _ _)
        cases e with
        | computeVersionsToDelete v => simp [isMarkOrList] at hsh
        | deleteFiles d => simp [isMarkOrList] at hsh
        | deleteLogs => simp [isMarkOrList] at hsh
        | deleteVersions v => simp [isMarkOrList] at hsh
        | markVersions c =>
          obtain ⟨he1, he2, hcnt⟩ := mark_step_spec st c st1 a1 hstep
          have hm2 : st1.pending_mark_versions_at_sysdb_tasks.Perm
              (marksOf rest) := by
            rw [he1]
            have := perm_erase_lawful c hm
            simpa [marksOf, List.erase_cons_head] using this
          have hl2 : st1.pending_list_files_at_version_tasks.Perm
              (listsOf rest) := by
            rw [he2]
            simpa [listsOf] using hl
          cases rest with
          | nil =>
            unfold runEvents at hrun
            simp only [Except.ok.injEq, Prod.mk.injEq] at hrun
            obtain ⟨-, rfl⟩ := hrun
            have hmark0 : st.pending_mark_versions_at_sysdb_tasks = [c] :=
              List.perm_singleton.mp (by simpa [marksOf] using hm)
            have hlist0 : st.pending_list_files_at_version_tasks = [] := by
              have h0 : st.pending_list_files_at_version_tasks.Perm [] := by
                simpa [listsOf] using hl
              exact h0.eq_nil
            rw [hcnt, if_pos ⟨hlist0, by rw [hmark0]; simp⟩]
            rfl
          | cons e2 rest2 =>
            have hcnt2 := ih st1 st2 a2 (fun x hx =>
              hshape x (List.mem_cons_of_mem _ hx)) hm2 hl2 (by simp) hrun
            have hzero : a1.countP isDeleteFilesDispatch = 0 := by
              rw [hcnt, if_neg]
              rintro ⟨hc1, hc2⟩
              have hsh2 := hshape e2 (List.mem_cons_of_mem _
                (List.mem_cons_self _ _))
              cases e2 with
              | computeVersionsToDelete v => simp [isMarkOrList] at hsh2
              | deleteFiles d => simp [isMarkOrList] at hsh2
              | deleteLogs => simp [isMarkOrList] at hsh2
              | deleteVersions v => simp [isMarkOrList] at hsh2
              | markVersions c2 =>
                have hmem2 : c2 ∈
                    st.pending_mark_versions_at_sysdb_tasks.erase c := by
                  refine (perm_erase_lawful c hm).symm.subset ?_
                  simp [marksOf, List.erase_cons_head]
                rw [hc2] at hmem2
                cases hmem2
              | listFiles o2 =>
                have hmem2 : (o2.collection_id, o2.version) ∈
                    st.pending_list_files_at_version_tasks := by
                  refine hl.symm.subset ?_
                  simp [listsOf]
                rw [hc1] at hmem2
                cases hmem2
            rw [hzero, hcnt2]
        | listFiles o =>
          obtain ⟨he1, he2, hcnt⟩ := list_step_spec st o st1 a1 hstep
          have hm2 : st1.pending_mark_versions_at_sysdb_tasks.Perm
              (marksOf rest) := by
            rw [he1]
            simpa [marksOf] using hm
          have hl2 : st1.pending_list_files_at_version_tasks.Perm
              (listsOf rest) := by
            rw [he2]
            have := perm_erase_lawful (o.collection_id, o.version) hl
            simpa [listsOf, List.erase_cons_head] using this
          cases rest with
          | nil =>
            unfold runEvents at hrun
            simp only [Except.ok.injEq, Prod.mk.injEq] at hrun
            obtain ⟨-, rfl⟩ := hrun
            have hlist0 : st.pending_list_files_at_version_tasks =
                [(o.collection_id, o.version)] := by
              exact List.perm_singleton.mp (by simpa [listsOf] using hl)
            have hmark0 : st.pending_mark_versions_at_sysdb_tasks = [] := by
              have h0 : st.pending_mark_versions_at_sysdb_tasks.Perm [] := by
                simpa [marksOf] using hm
              exact h0.eq_nil
            rw [hcnt, if_pos ⟨by rw [hlist0]; simp, hmark0⟩]
            rfl
          | cons e2 rest2 =>
            have hcnt2 := ih st1 st2 a2 (fun x hx =>
              hshape x (List.mem_cons_of_mem _ hx)) hm2 hl2 (by simp) hrun
            have hzero : a1.countP isDeleteFilesDispatch = 0 := by
              rw [hcnt, if_neg]
              rintro ⟨hc1, hc2⟩
              have hsh2 := hshape e2 (List.mem_cons_of_mem _
                (List.mem_cons_self _ _))
              cases e2 with
              | computeVersionsToDelete v => simp [isMarkOrList] at hsh2
              | deleteFiles d => simp [isMarkOrList] at hsh2
              | deleteLogs => simp [isMarkOrList] at hsh2
              | deleteVersions v => simp [isMarkOrList] at hsh2
              | markVersions c2 =>
                have hmem2 : c2 ∈ st.pending_mark_versions_at_sysdb_tasks := by
                  refine hm.symm.subset ?_
                  simp [marksOf]
                rw [hc2] at hmem2
                cases hmem2
              | listFiles o2 =>
                have hmem2 : (o2.collection_id, o2.version) ∈
                    st.pending_list_files_at_version_tasks.erase
                      (o.collection_id, o.version) := by
                  refine (perm_erase_lawful (o.collection_id, o.version)
                    hl).symm.subset ?_
                  simp [listsOf, List.erase_cons_head]
                rw [hc1] at hmem2
                cases hmem2
            rw [hzero, hcnt2]

lemma marksOf_append (A B : List Event) :
    marksOf (A ++ B) = marksOf A ++ marksOf B :=
  List.filterMap_append _ _ _

lemma listsOf_append (A B : List Event) :
    listsOf (A ++ B) = listsOf A ++ listsOf B :=
  List.filterMap_append _ _ _

lemma marksOf_markEventsOf (V : VersionsToDeleteOutput) :
    marksOf (markEventsOf V) = V.map Prod.fst := by
  induction V with
  | nil => rfl
  | cons cv rest ih =>
    simp only [markEventsOf, List.map_cons, marksOf, List.filterMap_cons] at *
    rw [ih]

lemma marksOf_listEventsOf (V : VersionsToDeleteOutput)
    (paths : CollectionId × Version → List Path) :
    marksOf (listEventsOf V paths) = [] := by
  rw [marksOf, List.filterMap_eq_nil_iff]
  intro e he
  simp only [listEventsOf, List.mem_flatMap, List.mem_map] at he
  obtain ⟨cv, -, pa, -, rfl⟩ := he
  rfl

lemma listsOf_markEventsOf (V : VersionsToDeleteOutput) :
    listsOf (markEventsOf V) = [] := by
  rw [listsOf, List.filterMap_eq_nil_iff]
  intro e he
  simp only [markEventsOf, List.mem_map] at he
  obtain ⟨cv, -, rfl⟩ := he
  rfl

lemma listsOf_block (c : CollectionId)
    (vs : List (Version × CollectionVersionAction))
    (paths : CollectionId × Version → List Path) :
    listsOf (vs.map (fun pa =>
      Event.listFiles ⟨c, pa.1, paths (c, pa.1)⟩)) =
    vs.map (fun pa => (c, pa.1)) := by
  induction vs with
  | nil => rfl
  | cons pa rest ih =>
    simp only [List.map_cons, listsOf, List.filterMap_cons] at *
    rw [ih]

lemma listsOf_listEventsOf (V : VersionsToDeleteOutput)
    (paths : CollectionId × Version → List Path) :
    listsOf (listEventsOf V paths) =
      V.flatMap (fun cv => cv.2.map (fun pa => (cv.1, pa.1))) := by
  induction V with
  | nil => rfl
  | cons cv rest ih =>
    rw [show listEventsOf (cv :: rest) paths =
        (cv.2.map (fun pa =>
          Event.listFiles ⟨cv.1, pa.1, paths (cv.1, pa.1)⟩)) ++
        listEventsOf rest paths from rfl,
      listsOf_append, ih, listsOf_block cv.1 cv.2 paths,
      List.flatMap_cons]

/-- Claim C4: `DeleteFiles` is dispatched only when both the pending
`MarkVersions` set and the pending `ListFiles` set are empty, and over any
complete processing order of the fan-out completions it is dispatched exactly
once; `DeleteVersions` tasks are dispatched only after both the `DeleteFiles`
output and the `DeleteLogs` output have been received. -/
theorem delete_files_and_versions_gating :
    (∀ (s s' : OState) (a : List Action),
      try_start_delete_unused_files_operator s = Except.ok (s', a) →
      0 < a.countP isDeleteFilesDispatch →
      s.pending_list_files_at_version_tasks = [] ∧
      s.pending_mark_versions_at_sysdb_tasks = []) ∧
    (∀ (stInit : OState) (V : VersionsToDeleteOutput)
        (paths : CollectionId × Version → List Path) (evts : List Event)
        (st0 st' : OState) (acts0 acts : List Action),
      V ≠ [] →
      handle_compute_versions_to_delete_output stInit V =
        Except.ok (st0, acts0) →
      evts.Perm (markEventsOf V ++ listEventsOf V paths) →
      runEvents st0 evts = Except.ok (st', acts) →
      acts.countP isDeleteFilesDispatch = 1) ∧
    (∀ (s s' : OState) (a : List Action),
      try_start_delete_versions_at_sysdb_operator s = Except.ok (s', a) →
      (∃ x ∈ a, isDeleteVersionsDispatch x = true) →
      s.delete_unused_file_output.isSome ∧
      s.delete_unused_log_output.isSome) := by
  refine ⟨?_, ?_, ?_⟩
  · intro s s' a h hpos
    obtain ⟨-, -, hcnt⟩ := tsf_count s s' a h
    rw [hcnt] at hpos
    by_cases hcond : s.pending_list_files_at_version_tasks = [] ∧
        s.pending_mark_versions_at_sysdb_tasks = []
    · exact hcond
    · rw [if_neg hcond] at hpos
      cases hpos
  · intro stInit V paths evts st0 st' acts0 acts hne hok hperm hrun
    unfold handle_compute_versions_to_delete_output at hok
    rw [if_neg (by simpa using hne)] at hok
    cases hdml : dispatchMarkAndList stInit.version_files V <;>
      rw [hdml] at hok
    · cases hok
    · rename_i acts1
      simp only [Except.ok.injEq, Prod.mk.injEq] at hok
      obtain ⟨hst0, -⟩ := hok
      have hm : st0.pending_mark_versions_at_sysdb_tasks.Perm
          (marksOf evts) := by
        rw [← hst0]
        show (V.map (fun cv => cv.1)).Perm (marksOf evts)
        have h1 : (marksOf evts).Perm
            (marksOf (markEventsOf V ++ listEventsOf V paths)) :=
          hperm.filterMap _
        rw [marksOf_append, marksOf_markEventsOf, marksOf_listEventsOf,
          List.append_nil] at h1
        exact h1.symm
      have hl : st0.pending_list_files_at_version_tasks.Perm
          (listsOf evts) := by
        rw [← hst0]
        show (V.flatMap (fun cv =>
          cv.2.map (fun pa => (cv.1, pa.1)))).Perm (listsOf evts)
        have h1 : (listsOf evts).Perm
            (listsOf (markEventsOf V ++ listEventsOf V paths)) :=
          hperm.filterMap _
        rw [listsOf_append, listsOf_markEventsOf, listsOf_listEventsOf,
          List.nil_append] at h1
        exact h1.symm
      have hshape : ∀ e ∈ evts, isMarkOrList e = true := by
        intro e he
        have hmem := hperm.subset he
        rcases List.mem_append.mp hmem with hmem2 | hmem2
        · simp only [markEventsOf, List.mem_map] at hmem2
          obtain ⟨cv, -, rfl⟩ := hmem2
          rfl
        · simp only [listEventsOf, List.mem_flatMap, List.mem_map] at hmem2
          obtain ⟨cv, -, pa, -, rfl⟩ := hmem2
          rfl
      have hneev : evts ≠ [] := by
        intro hnil
        subst hnil
        have hlen := hperm.length_eq
        cases V with
        | nil => exact hne rfl
        | cons cv rest =>
          simp [markEventsOf] at hlen
      exact run_count evts st0 st' acts hshape hm hl hneev hrun
  · intro s s' a h hx
    unfold try_start_delete_versions_at_sysdb_operator at h
    split at h
    · simp only [Except.ok.injEq, Prod.mk.injEq] at h
      obtain ⟨-, rfl⟩ := h
      obtain ⟨x, hmem, -⟩ := hx
      cases hmem
    · rename_i output hout
      by_cases hlog : s.delete_unused_log_output = none
      · rw [if_pos hlog] at h
        simp only [Except.ok.injEq, Prod.mk.injEq] at h
        obtain ⟨-, rfl⟩ := h
        obtain ⟨x, hmem, -⟩ := hx
        cases hmem
      · refine ⟨by rw [hout]; rfl, Option.ne_none_iff_isSome.mp hlog⟩

end GatingLemmas

/-- A classification with a single kept version for collection 1. -/
def c4V : VersionsToDeleteOutput := [(1, [(2, CollectionVersionAction.Keep)])]

/-- The initial state of the C4 run. -/
def c4StInit : OState := { baseState with version_files := [(1, c3File)] }

/-- The state after the classification handler in the C4 run. -/
def c4St0 : OState :=
  { c4StInit with
    pending_list_files_at_version_tasks := [(1, 2)]
    pending_mark_versions_at_sysdb_tasks := [1]
    versions_to_delete_output := some c4V }

/-- The completion sequence of the C4 run. -/
def c4Events : List Event :=
  [Event.markVersions 1, Event.listFiles ⟨1, 2, ["f"]⟩]

/-- The state after both completions of the C4 run. -/
def c4StFinal : OState :=
  { c4St0 with
    pending_list_files_at_version_tasks := []
    pending_mark_versions_at_sysdb_tasks := []
    file_ref_counts := [("f", 1)]
    tenant := some "t"
    database_name := some "db" }

theorem delete_files_and_versions_gating_witness :
    c4V ≠ [] ∧
    ([Action.DispatchDeleteLogs [] [(1, 10)],
      Action.DispatchDeleteFiles [] "t"].countP isDeleteFilesDispatch = 1) :=
  ⟨by decide, delete_files_and_versions_gating.2.1 c4StInit c4V
    (fun _ => ["f"]) c4Events c4St0 c4StFinal
    [Action.DispatchMarkVersions 1 [] "t" "dbid", Action.DispatchListFiles 1 2]
    [Action.DispatchDeleteLogs [] [(1, 10)],
     Action.DispatchDeleteFiles [] "t"]
    (by decide) rfl (List.Perm.refl _) rfl⟩

end ChromaGC
